import Mathlib

/-
Verification development for the rit content-addressed version-control
engine.  The Rust sources are shallowly embedded: byte strings become
List Nat (one Nat per byte), stateful file access becomes explicit state
passing, and fallible operations return Except.  A Rust panic
(unwrap/expect/out-of-bounds indexing/slicing) is modelled by the
dedicated error value IoErr.panicked, which is distinct from an error
that the Rust code returns through io::Result.
-/

deriving instance DecidableEq for Except

namespace Rit

abbrev Bytes := List Nat

/-- ASCII bytes of the type tag blob. -/
def blobT : Bytes := [98, 108, 111, 98]

/-- ASCII bytes of the type tag tree. -/
def treeT : Bytes := [116, 114, 101, 101]

/-- ASCII bytes of the type tag commit. -/
def commitT : Bytes := [99, 111, 109, 109, 105, 116]

/-- Little-endian base-10 digit list, fuelled so that it is structurally
recursive (fuel at least n always suffices). -/
def decDigitsLE : Nat → Nat → List Nat
  | 0, _ => []
  | fuel + 1, n => if n = 0 then [] else n % 10 :: decDigitsLE fuel (n / 10)

/-- Decimal ASCII rendering of a natural number, as produced by the Rust
Display impl for unsigned integers (used by format!). -/
def natToDecBytes (n : Nat) : Bytes :=
  if n = 0 then [48] else ((decDigitsLE n n).map (fun d => d + 48)).reverse

def isDecDigit (b : Nat) : Bool := 48 ≤ b && b ≤ 57

/-- Numeric value of a string of decimal ASCII digits (most significant
first). -/
def decValue (l : Bytes) : Nat :=
  Nat.ofDigits 10 ((l.map (fun b => b - 48)).reverse)

/-- Rust str::parse for an unsigned integer type whose exclusive upper
bound is the given bound: an optional leading plus sign, then one or more
decimal digits; overflow is an error. -/
def parseRustUIntCore (s : Bytes) (bound : Nat) : Option Nat :=
  if !s.isEmpty && s.all isDecDigit && decide (decValue s < bound)
  then some (decValue s) else none

def parseRustUInt (l : Bytes) (bound : Nat) : Option Nat :=
  if l.head? = some 43 then parseRustUIntCore l.tail bound
  else parseRustUIntCore l bound

/-- Continuation byte of a multi-byte UTF-8 sequence. -/
def utf8Cont (b : Nat) : Bool := 128 ≤ b && b ≤ 191

/-- State machine for UTF-8 validation: none when at a character
boundary, otherwise the admissible range of the next byte and the count
of plain continuation bytes still owed after it. -/
def validUtf8Aux : Bytes → Option (Nat × Nat × Nat) → Bool
  | [], st => st.isNone
  | b :: r, none =>
    if b ≤ 127 then validUtf8Aux r none
    else if 194 ≤ b && b ≤ 223 then validUtf8Aux r (some (128, 191, 0))
    else if b = 224 then validUtf8Aux r (some (160, 191, 1))
    else if 225 ≤ b && b ≤ 236 then validUtf8Aux r (some (128, 191, 1))
    else if b = 237 then validUtf8Aux r (some (128, 159, 1))
    else if 238 ≤ b && b ≤ 239 then validUtf8Aux r (some (128, 191, 1))
    else if b = 240 then validUtf8Aux r (some (144, 191, 2))
    else if 241 ≤ b && b ≤ 243 then validUtf8Aux r (some (128, 191, 2))
    else if b = 244 then validUtf8Aux r (some (128, 143, 2))
    else false
  | b :: r, some (lo, hi, more) =>
    if lo ≤ b && b ≤ hi then
      validUtf8Aux r (if more = 0 then none else some (128, 191, more - 1))
    else false

/-- Whether a byte string is well-formed UTF-8, as checked by Rust
str::from_utf8. -/
def validUtf8 (l : Bytes) : Bool := validUtf8Aux l none

/-- Value of one hexadecimal ASCII digit, as accepted by the hex crate. -/
def hexDigitVal (b : Nat) : Option Nat :=
  if 48 ≤ b && b ≤ 57 then some (b - 48)
  else if 97 ≤ b && b ≤ 102 then some (b - 87)
  else if 65 ≤ b && b ≤ 70 then some (b - 55)
  else none

/-- Decoding of a hexadecimal ASCII string to raw bytes (hex crate
decode): fails on odd length or a non-hex digit. -/
def hexDecode : Bytes → Option Bytes
  | [] => some []
  | [_] => none
  | a :: b :: t =>
    match hexDigitVal a, hexDigitVal b, hexDecode t with
    | some x, some y, some r => some ((16 * x + y) :: r)
    | _, _, _ => none

def hexChar (n : Nat) : Nat := if n < 10 then n + 48 else n + 87

/-- Lowercase hexadecimal rendering of raw bytes (hex crate encode). -/
def hexEncode (l : Bytes) : Bytes :=
  (l.map (fun b => [hexChar (b / 16), hexChar (b % 16)])).flatten

/-- Bytes before the first occurrence of the separator, and the bytes
after it; none when the separator does not occur. -/
def splitAtFirst (sep : Nat) : Bytes → Option (Bytes × Bytes)
  | [] => none
  | b :: r =>
    if b = sep then some ([], r)
    else
      match splitAtFirst sep r with
      | some (pre, post) => some (b :: pre, post)
      | none => none

/-- Splitting at every occurrence of the separator; always returns one
more part than there are separators. -/
def splitOnByte (sep : Nat) : Bytes → List Bytes
  | [] => [[]]
  | b :: r =>
    if b = sep then [] :: splitOnByte sep r
    else
      match splitOnByte sep r with
      | h :: t => (b :: h) :: t
      | [] => [[b]]

/-- ASCII whitespace in the sense of Rust char::is_whitespace (the
embedding covers the ASCII range: space, tab, line feed, vertical tab,
form feed, carriage return). -/
def isWsB (b : Nat) : Bool := b = 32 || (9 ≤ b && b ≤ 13)

def trimStartBytes (l : Bytes) : Bytes := l.dropWhile isWsB

def trimEndBytes (l : Bytes) : Bytes := (l.reverse.dropWhile isWsB).reverse

/-- Rust str::trim restricted to ASCII whitespace. -/
def trimBytes (l : Bytes) : Bytes := trimEndBytes (trimStartBytes l)

/-- Accumulator form of split_whitespace: cur holds the bytes of the
token currently being read, in reverse. -/
def splitWsAux : Bytes → Bytes → List Bytes
  | [], cur => if cur = [] then [] else [cur.reverse]
  | b :: r, cur =>
    if isWsB b then
      if cur = [] then splitWsAux r [] else cur.reverse :: splitWsAux r []
    else splitWsAux r (b :: cur)

/-- Rust str::split_whitespace restricted to ASCII whitespace: maximal
runs of non-whitespace bytes. -/
def splitWs (l : Bytes) : List Bytes := splitWsAux l []

/-- Three-way byte-wise lexicographic comparison, the order underlying
the Rust Ord instance for String and for byte slices. -/
def compareBytes : Bytes → Bytes → Ordering
  | [], [] => .eq
  | [], _ :: _ => .lt
  | _ :: _, [] => .gt
  | a :: as, b :: bs =>
    if a < b then .lt else if b < a then .gt else compareBytes as bs

inductive IoErr
  | notFound
  | invalidData
  | unexpectedEof
  | panicked
deriving DecidableEq, Repr

/-- Index of the first occurrence of a byte (iter().position in Rust). -/
def firstIdxOf (v : Nat) : Bytes → Option Nat
  | [] => none
  | b :: r => if b = v then some 0 else (firstIdxOf v r).map (· + 1)

/-- Framed form of a record built by store_data (src/database.rs): the
type tag, a space, the decimal payload length, a NUL byte, the payload. -/
def frameOf (object_type : Bytes) (data : Bytes) : Bytes :=
  object_type ++ 32 :: (natToDecBytes data.length ++ 0 :: data)

/-- Object store state: hex digest key to stored (compressed) bytes.
This models the objects directory; the key determines the path. -/
abbrev Store := Bytes → Option Bytes

def storeInsert (s : Store) (k : Bytes) (v : Bytes) : Store :=
  fun k1 => if k1 = k then some v else s k1

/-- store_data from src/database.rs.  hash models hash_data (SHA-256 as
lowercase hex) and compress models compress_data (zstd); both are
external crates, so they are parameters.  The frame is hashed, and the
compressed frame is written only when the key is not already present. -/
def store_data (hash : Bytes → Bytes) (compress : Bytes → Bytes)
    (s : Store) (data : Bytes) (object_type : Bytes) : Bytes × Store :=
  let object := frameOf object_type data
  let key := hash object
  match s key with
  | some _ => (key, s)
  | none => (key, storeInsert s key (compress object))

/-- parse_metadata_and_data from src/database.rs.  The positions of the
first space and the first NUL are found over the whole buffer; when the
first NUL precedes the first space the Rust slice expression
data[first_space + 1..null_char] panics, modelled by IoErr.panicked. -/
def parse_metadata_and_data (data : Bytes) : Except IoErr (Bytes × Nat × Bytes) :=
  match firstIdxOf 32 data with
  | none => .error .invalidData
  | some first_space =>
    match firstIdxOf 0 data with
    | none => .error .invalidData
    | some null_char =>
      let object_type := data.take first_space
      if !validUtf8 object_type then .error .invalidData
      else if null_char < first_space + 1 then .error .panicked
      else
        let size_bytes := (data.drop (first_space + 1)).take (null_char - (first_space + 1))
        if !validUtf8 size_bytes then .error .invalidData
        else
          match parseRustUInt size_bytes (2 ^ 64) with
          | none => .error .invalidData
          | some object_size => .ok (object_type, object_size, data.drop (null_char + 1))

/-- get_data from src/database.rs: resolve the key, decompress, parse
the frame.  uncompress models uncompress_data (zstd). -/
def get_data (uncompress : Bytes → Except IoErr Bytes) (s : Store) (key : Bytes) :
    Except IoErr (Bytes × Nat × Bytes) :=
  match s key with
  | none => .error .notFound
  | some buffer =>
    match uncompress buffer with
    | .error e => .error e
    | .ok data => parse_metadata_and_data data

structure IndexEntry where
  mode : Nat
  blob_hash : Bytes
  path : Bytes
deriving DecidableEq, Repr

/-- Big-endian byte encoding of a u32 (u32::to_be_bytes). -/
def be4 (n : Nat) : Bytes := [n / 2 ^ 24 % 256, n / 2 ^ 16 % 256, n / 2 ^ 8 % 256, n % 256]

/-- Big-endian byte encoding of a u16 (u16::to_be_bytes). -/
def be2 (n : Nat) : Bytes := [n / 2 ^ 8 % 256, n % 256]

/-- Big-endian value of a byte string (from_be_bytes). -/
def beVal (l : Bytes) : Nat := l.foldl (fun a b => a * 256 + b) 0

/-- write_index_entry from src/index.rs: 4-byte big-endian mode, 1-byte
hash length (length cast to u8), hash bytes, 2-byte big-endian path
length (length cast to u16), path bytes. -/
def write_index_entry (e : IndexEntry) : Bytes :=
  be4 e.mode ++ (e.blob_hash.length % 256) :: (e.blob_hash ++ be2 e.path.length ++ e.path)

/-- Read::read_exact on an in-memory reader: consume exactly n bytes or
fail (UnexpectedEof). -/
def readExact (n : Nat) (input : Bytes) : Option (Bytes × Bytes) :=
  if n ≤ input.length then some (input.take n, input.drop n) else none

/-- read_index_entry from src/index.rs.  A short read of the 4-byte mode
header is wrapped as the No-more-entries UnexpectedEof error; every later
short read propagates read_exact's own UnexpectedEof; invalid UTF-8 in
the hash or path is InvalidData. -/
def read_index_entry (input : Bytes) : Except IoErr (IndexEntry × Bytes) :=
  match readExact 4 input with
  | none => .error .unexpectedEof
  | some (mode_bytes, r1) =>
    let mode := beVal mode_bytes
    match readExact 1 r1 with
    | none => .error .unexpectedEof
    | some (hash_len_bytes, r2) =>
      let hash_len := beVal hash_len_bytes
      match readExact hash_len r2 with
      | none => .error .unexpectedEof
      | some (hash_bytes, r3) =>
        if !validUtf8 hash_bytes then .error .invalidData
        else
          match readExact 2 r3 with
          | none => .error .unexpectedEof
          | some (path_len_bytes, r4) =>
            let path_len := beVal path_len_bytes
            match readExact path_len r4 with
            | none => .error .unexpectedEof
            | some (path_bytes, r5) =>
              if !validUtf8 path_bytes then .error .invalidData
              else .ok (⟨mode, hash_bytes, path_bytes⟩, r5)

/-- Loop of load_index (while let Ok(entry) = read_index_entry(..)):
entries accumulate while reads succeed and the FIRST error of any kind
ends the loop silently.  Fuel only bounds the iteration count; a
successful read consumes at least seven bytes, so length + 1 fuel never
runs out. -/
def loadEntriesLoop : Nat → Bytes → List IndexEntry
  | 0, _ => []
  | fuel + 1, input =>
    match read_index_entry input with
    | .ok (e, rest) => e :: loadEntriesLoop fuel rest
    | .error _ => []

/-- load_index from src/index.rs over the in-memory index-file state: an
absent file yields Ok with the empty entry list; otherwise the loop
above runs over the file bytes. -/
def load_index (file : Option Bytes) : Except IoErr (List IndexEntry) :=
  match file with
  | none => .ok []
  | some bytes => .ok (loadEntriesLoop (bytes.length + 1) bytes)

/-- save_index from src/index.rs: the concatenation of the serialized
entries is the new index-file content. -/
def save_index (entries : List IndexEntry) : Bytes :=
  (entries.map write_index_entry).flatten

/-- Association-list insert with overwrite, modelling HashMap insertion
for lookup purposes (HashMap iteration order is arbitrary in Rust; this
model fixes one order, which only matters for on-disk entry order that
the source itself leaves unspecified). -/
def alInsert {α : Type} (k : Bytes) (v : α) : List (Bytes × α) → List (Bytes × α)
  | [] => [(k, v)]
  | (k1, v1) :: t => if k1 = k then (k, v) :: t else (k1, v1) :: alInsert k v t

def alLookup {α : Type} (k : Bytes) : List (Bytes × α) → Option α
  | [] => none
  | (k1, v1) :: t => if k1 = k then some v1 else alLookup k t

/-- The path-keyed map the index mutations build from the loaded entries
(collect into HashMap: a later duplicate path overwrites an earlier one). -/
def indexMapOf (entries : List IndexEntry) : List (Bytes × IndexEntry) :=
  entries.foldl (fun m e => alInsert e.path e m) []

/-- One upsert step shared by add_to_index and bulk_add_to_index: keep
the stored mode when present (or_insert with default mode 0o100644),
then overwrite the blob hash. -/
def upsertEntry (m : List (Bytes × IndexEntry)) (file_path blob_hash : Bytes) :
    List (Bytes × IndexEntry) :=
  match alLookup file_path m with
  | some e => alInsert file_path { e with blob_hash := blob_hash } m
  | none => alInsert file_path ⟨0o100644, blob_hash, file_path⟩ m

/-- add_to_index from src/index.rs: load, upsert by path, save.  The
result is the new index-file content. -/
def add_to_index (file : Option Bytes) (file_path blob_hash : Bytes) :
    Except IoErr Bytes := do
  let index ← load_index file
  let m := upsertEntry (indexMapOf index) file_path blob_hash
  .ok (save_index (m.map Prod.snd))

/-- bulk_add_to_index from src/index.rs: load once, upsert every pair,
save once. -/
def bulk_add_to_index (file : Option Bytes) (entries : List (Bytes × Bytes)) :
    Except IoErr Bytes := do
  let index ← load_index file
  let m := entries.foldl (fun m p => upsertEntry m p.1 p.2) (indexMapOf index)
  .ok (save_index (m.map Prod.snd))

/-- remove_from_index from src/index.rs: retain every entry whose path
differs. -/
def remove_from_index (file : Option Bytes) (file_path : Bytes) : Except IoErr Bytes := do
  let entries ← load_index file
  .ok (save_index (entries.filter (fun e => !(e.path == file_path))))

/-- First-match update of update_index (the loop breaks after the first
path hit). -/
def updateFirst (file_path blob_hash : Bytes) : List IndexEntry → List IndexEntry
  | [] => []
  | e :: t =>
    if e.path == file_path then { e with blob_hash := blob_hash } :: t
    else e :: updateFirst file_path blob_hash t

/-- update_index from src/index.rs: load, overwrite the hash of the
first entry with the given path, save. -/
def update_index (file : Option Bytes) (file_path blob_hash : Bytes) : Except IoErr Bytes := do
  let entries ← load_index file
  .ok (save_index (updateFirst file_path blob_hash entries))

/-- ASCII bytes of the label unmodified. -/
def unmodifiedL : Bytes := [117, 110, 109, 111, 100, 105, 102, 105, 101, 100]

/-- ASCII bytes of the label modified. -/
def modifiedL : Bytes := [109, 111, 100, 105, 102, 105, 101, 100]

/-- ASCII bytes of the label new file. -/
def newFileL : Bytes := [110, 101, 119, 32, 102, 105, 108, 101]

/-- ASCII bytes of the label deleted. -/
def deletedL : Bytes := [100, 101, 108, 101, 116, 101, 100]

/-- ASCII bytes of the label added, the label the specification names
for index-only paths in the staged classification. -/
def addedL : Bytes := [97, 100, 100, 101, 100]

/-- Path-to-hash maps built inside check_for_changes. -/
def hashMapOf (entries : List IndexEntry) : List (Bytes × Bytes) :=
  entries.foldl (fun m e => alInsert e.path e.blob_hash m) []

/-- check_for_changes from src/index.rs: classify every current entry as
unmodified, modified or new file against the previous map, then mark
every previous path missing from the current map as deleted. -/
def check_for_changes (previous current : List IndexEntry) : List (Bytes × Bytes) :=
  let previous_files := hashMapOf previous
  let current_files := hashMapOf current
  let changes := current.foldl (fun ch e =>
      match alLookup e.path previous_files with
      | some prev_hash =>
        if prev_hash = e.blob_hash then alInsert e.path unmodifiedL ch
        else alInsert e.path modifiedL ch
      | none => alInsert e.path newFileL ch) []
  previous.foldl (fun ch e =>
      if (alLookup e.path current_files).isSome then ch
      else alInsert e.path deletedL ch) changes

structure Commit where
  tree : Bytes
  parent : Option Bytes
  committer : Bytes
  message : Bytes
  timestamp : Nat
deriving DecidableEq, Repr

/-- ASCII bytes of the header key parent. -/
def parentKW : Bytes := [112, 97, 114, 101, 110, 116]

/-- ASCII bytes of the header key committer. -/
def committerKW : Bytes := [99, 111, 109, 109, 105, 116, 116, 101, 114]

/-- Commit::serialize from src/commit.rs: tree line, optional parent
line, committer line with the decimal timestamp as last token, a blank
line, then the raw message. -/
def Commit.serialize (c : Commit) : Bytes :=
  treeT ++ 32 :: c.tree ++ 10 ::
    ((match c.parent with
      | some p => parentKW ++ 32 :: p ++ [10]
      | none => []) ++
      (committerKW ++ 32 :: c.committer ++ 32 :: natToDecBytes c.timestamp ++ 10 :: 10 :: c.message))

/-- Removal of one trailing carriage return, as Rust lines() applies to
each line. -/
def stripCR (l : Bytes) : Bytes := if l.getLast? = some 13 then l.dropLast else l

/-- Rust str::lines: pieces between line feeds, without the final empty
piece a trailing line feed would produce. -/
def linesOf (l : Bytes) : List Bytes :=
  if l = [] then []
  else (if l.getLast? = some 10 then (splitOnByte 10 l).dropLast else splitOnByte 10 l).map stripCR

structure DeserState where
  tree : Bytes
  parent : Option Bytes
  committer : Bytes
  timestamp : Nat
  message : Bytes
  in_message : Bool

/-- line.splitn(2, space): key before the first space, value after it;
a line without a space is all key and the value defaults to empty. -/
def splitN2Space (line : Bytes) : Bytes × Bytes :=
  match splitAtFirst 32 line with
  | some (k, v) => (k, v)
  | none => (line, [])

/-- One line of Commit::deserialize (src/commit.rs).  In the committer
case the value is split on whitespace: with more than two tokens the
last token parses as the timestamp (unwrap_or_default gives 0 on a parse
failure) and the rest re-join with single spaces; otherwise the raw
value becomes the committer and the timestamp falls back to 0. -/
def deserLine (st : DeserState) (line : Bytes) : DeserState :=
  if st.in_message then { st with message := st.message ++ line ++ [10] }
  else if line = [] then { st with in_message := true }
  else
    let kv := splitN2Space line
    if kv.1 = treeT then { st with tree := kv.2 }
    else if kv.1 = parentKW then { st with parent := some kv.2 }
    else if kv.1 = committerKW then
      let parts := splitWs kv.2
      if 2 < parts.length then
        { st with committer := List.intercalate [32] parts.dropLast,
                  timestamp := (parseRustUInt (parts.getLastD []) (2 ^ 64)).getD 0 }
      else { st with committer := kv.2, timestamp := 0 }
    else st

/-- Commit::deserialize from src/commit.rs: fold the lines through the
header/message state machine, then trim trailing whitespace off the
reassembled message.  The source returns Ok on every path. -/
def Commit.deserialize (data : Bytes) : Commit :=
  let st := (linesOf data).foldl deserLine ⟨[], none, [], 0, [], false⟩
  ⟨st.tree, st.parent, st.committer, trimEndBytes st.message, st.timestamp⟩

structure TreeEntry where
  mode : Nat
  object_type : Bytes
  hash : Bytes
  name : Bytes
deriving DecidableEq, Repr

/-- serialize_tree_entries from src/tree.rs: per entry the decimal mode,
a space, the name, a NUL byte and the 32 raw digest bytes obtained by
hex-decoding the stored digest; a digest that is not valid hex or not 32
bytes long is an InvalidData error. -/
def serialize_tree_entries : List TreeEntry → Except IoErr Bytes
  | [] => .ok []
  | e :: t =>
    match hexDecode e.hash with
    | some hb =>
      if hb.length = 32 then
        match serialize_tree_entries t with
        | .ok rest => .ok (natToDecBytes e.mode ++ 32 :: e.name ++ 0 :: (hb ++ rest))
        | .error er => .error er
      else .error .invalidData
    | none => .error .invalidData

/-- deserialize_tree_entries from src/tree.rs, fuelled (each iteration
consumes at least one byte, so length + 1 fuel never runs out).  Every
abnormal exit of the source is a panic, not an error return: the
mode/name scans index past the end when the separator is missing, the
UTF-8 and mode conversions use expect, and the digest slice panics when
fewer than 32 bytes remain. -/
def deserialize_tree_entries_fuel : Nat → Bytes → Except IoErr (List TreeEntry)
  | 0, _ => .error .panicked
  | fuel + 1, data =>
    match data with
    | [] => .ok []
    | _ =>
      match splitAtFirst 32 data with
      | none => .error .panicked
      | some (mode_bytes, r1) =>
        if !validUtf8 mode_bytes then .error .panicked
        else
          match parseRustUInt mode_bytes (2 ^ 32) with
          | none => .error .panicked
          | some mode =>
            match splitAtFirst 0 r1 with
            | none => .error .panicked
            | some (name_bytes, r2) =>
              if !validUtf8 name_bytes then .error .panicked
              else if r2.length < 32 then .error .panicked
              else
                match deserialize_tree_entries_fuel fuel (r2.drop 32) with
                | .ok rest =>
                  .ok (⟨mode, if mode = 0o040000 then treeT else blobT,
                        hexEncode (r2.take 32), name_bytes⟩ :: rest)
                | .error er => .error er

/-- Entry point wrapping the fuelled tree parser. -/
def deserialize_tree_entries (data : Bytes) : Except IoErr (List TreeEntry) :=
  deserialize_tree_entries_fuel (data.length + 1) data

/-- Sorted name-keyed association list standing for the BTreeMap of
recursive_tree; insertion keeps byte-wise lexicographic key order and
overwrites an equal key. -/
abbrev TMap := List (Bytes × TreeEntry)

def insertSorted (k : Bytes) (v : TreeEntry) : TMap → TMap
  | [] => [(k, v)]
  | (k1, v1) :: t =>
    match compareBytes k k1 with
    | .lt => (k, v) :: (k1, v1) :: t
    | .eq => (k, v) :: t
    | .gt => (k1, v1) :: insertSorted k v t

/-- Index entry paired with its remaining path components relative to
the current directory of the recursion. -/
abbrev PEntry := List Bytes × IndexEntry

/-- Entries whose remaining path is a single component: the direct blob
children of the current directory. -/
def blobsOf (es : List PEntry) : List PEntry := es.filter (fun pe => pe.1.length == 1)

def subdirHead (pe : PEntry) : Option Bytes :=
  match pe.1 with
  | c :: _ :: _ => some c
  | _ => none

/-- First components of the multi-component entries: the subdirectory
names of the current directory.  HashMap iteration order is arbitrary in
Rust; dedup fixes one order, and the determinism theorem shows the
result does not depend on it. -/
def subdirNames (es : List PEntry) : List Bytes :=
  (es.filterMap subdirHead).dedup

/-- The entries that fall under the given subdirectory, with the leading
component stripped. -/
def childEntries (d : Bytes) (es : List PEntry) : List PEntry :=
  es.filterMap (fun pe =>
    match pe.1 with
    | c :: r :: rs => if c = d then some ((r :: rs, pe.2) : PEntry) else none
    | _ => none)

/-- Last path component of the entry, the candidate file name. -/
def blobName (pe : PEntry) : Bytes := pe.1.getLastD []

/-- Whether a component is a Normal component of Path::components.  The
non-Normal components are RootDir, CurDir and ParentDir, whose
as_os_str byte strings are the slash, the dot and the double dot; a
Normal component can never equal one of those strings because empty and
dot segments are normalized away and a segment cannot contain a slash.
Path::file_name returns None exactly when the last component is not
Normal, and recursive_tree unwraps that Option. -/
def normalComp (c : Bytes) : Bool := !(c == [46] || c == [46, 46] || c == [47])

def blobTreeEntry (pe : PEntry) : TreeEntry :=
  ⟨pe.2.mode, blobT, pe.2.blob_hash, blobName pe⟩

def dirTreeEntry (d h : Bytes) : TreeEntry := ⟨0o040000, treeT, h, d⟩

/-- The blob loop of recursive_tree: each blob of the current directory
is named by Path::file_name().unwrap() of its path and inserted into the
BTreeMap in entry order.  file_name is None when the last component is
not Normal (a path such as dot-dot), so the unwrap panics there; the
panic aborts before any later blob or subdirectory is processed. -/
def blobFold : List PEntry → TMap → Except IoErr TMap
  | [], m => .ok m
  | pe :: t, m =>
    if normalComp (blobName pe) then
      blobFold t (insertSorted (blobName pe) (blobTreeEntry pe) m)
    else .error .panicked

/-- Serialization plus store of one finished node: the digest
recursive_tree returns is the hash of the framed serialized entries (the
store write does not influence the returned key, and with no base tree
the recursion never reads the store). -/
def hashOfNode (hash : Bytes → Bytes) (r : Except IoErr TMap) : Except IoErr Bytes :=
  match r with
  | .error er => .error er
  | .ok m =>
    match serialize_tree_entries (m.map Prod.snd) with
    | .error er => .error er
    | .ok payload => .ok (hash (frameOf treeT payload))

/-- BTreeMap contents of one node of recursive_tree (src/tree.rs) with
base_tree_hash = None: blob children are inserted first (keyed and named
by their final component), then each subdirectory recursion result is
inserted under the subdirectory name with mode 0o040000.  Fuel bounds
the recursion depth; one level strips one component off every child, so
total path length + 1 fuel never runs out. -/
def nodeMap (hash : Bytes → Bytes) : Nat → List PEntry → Except IoErr TMap
  | 0, _ => .error .invalidData
  | fuel + 1, es =>
    match blobFold (blobsOf es) [] with
    | .error er => .error er
    | .ok m0 =>
      (subdirNames es).foldlM (fun m d =>
          match hashOfNode hash (nodeMap hash fuel (childEntries d es)) with
          | .error er => .error er
          | .ok h => .ok (insertSorted d (dirTreeEntry d h) m)) m0

/-- recursive_tree from src/tree.rs (no base tree): build the node map,
serialize its values in key order, store, return the digest. -/
def recursive_tree (hash : Bytes → Bytes) (fuel : Nat) (es : List PEntry) :
    Except IoErr Bytes :=
  hashOfNode hash (nodeMap hash fuel es)

/-- Slash-separated segments of a path with the segments
Path::components normalizes away removed: empty segments (repeated or
trailing separators) and dot segments. -/
def pathSegs (p : Bytes) : List Bytes :=
  (splitOnByte 47 p).filter (fun s => !(s.isEmpty || s == [46]))

/-- Path::components of a repository path as the component byte strings,
with Rust's normalization: repeated separators and interior dot
segments collapse (a/b, a//b, a/./b and a/b/ all have components a, b),
a leading slash is a RootDir component, and a path starting with a dot
segment keeps it as a CurDir component; dot-dot segments are kept. -/
def splitPath (p : Bytes) : List Bytes :=
  match p with
  | [] => []
  | b :: r =>
    if b = 47 then [47] :: pathSegs (b :: r)
    else if b = 46 ∧ (r = [] ∨ r.head? = some (47 : Nat)) then [46] :: pathSegs (b :: r)
    else pathSegs (b :: r)

def pathFuel (entries : List IndexEntry) : Nat :=
  (entries.map (fun e => (splitPath e.path).length)).sum + 1

/-- create_tree from src/tree.rs with base_tree_hash = None: start the
recursion at the repository root over all index entries. -/
def create_tree (hash : Bytes → Bytes) (entries : List IndexEntry) : Except IoErr Bytes :=
  recursive_tree hash (pathFuel entries) (entries.map (fun e => (splitPath e.path, e)))

/-- ASCII bytes of yes. -/
def yesB : Bytes := [121, 101, 115]

/-- Observable decision of rit_remove (src/repo.rs): whether
utility::repo_remove is invoked for the given stdin line.  The source
removes the repository exactly when the trimmed input is NOT yes. -/
def rit_remove_removes (input : Bytes) : Bool := !(trimBytes input == yesB)

/-- Label the first pass of check_for_changes assigns to a current
entry, given the previous path-to-hash map (proof-support definition). -/
def stagedLabel (pm : List (Bytes × Bytes)) (e : IndexEntry) : Bytes :=
  match alLookup e.path pm with
  | some prev_hash => if prev_hash = e.blob_hash then unmodifiedL else modifiedL
  | none => newFileL

/-- Concatenation of lines, each with a line feed appended: the shape in
which Commit::deserialize reassembles the message (proof-support
definition). -/
def joinLines (ls : List Bytes) : Bytes := (ls.map (fun l => l ++ [10])).flatten

/-
Helper lemmas about the byte-level utilities.
-/

theorem decDigitsLE_eq_digits : ∀ fuel n, n ≤ fuel → decDigitsLE fuel n = Nat.digits 10 n := by
  intro fuel
  induction fuel with
  | zero =>
    intro n hn
    have h0 : n = 0 := by omega
    simp [decDigitsLE, h0]
  | succ f ih =>
    intro n hn
    by_cases h0 : n = 0
    · simp [decDigitsLE, h0]
    · rw [decDigitsLE, if_neg h0,
        Nat.digits_def' (by norm_num : (1 : ℕ) < 10) (Nat.pos_of_ne_zero h0)]
      have hdiv : n / 10 ≤ f := by
        have := Nat.div_lt_self (Nat.pos_of_ne_zero h0) (by norm_num : (1 : ℕ) < 10)
        omega
      rw [ih _ hdiv]

theorem natToDecBytes_eq (n : Nat) :
    natToDecBytes n =
      if n = 0 then [48] else ((Nat.digits 10 n).map (fun d => d + 48)).reverse := by
  unfold natToDecBytes
  rw [decDigitsLE_eq_digits n n le_rfl]

theorem decValue_natToDecBytes (n : Nat) : decValue (natToDecBytes n) = n := by
  rw [natToDecBytes_eq]
  by_cases h0 : n = 0
  · subst h0; decide
  · simp only [h0, if_false]
    unfold decValue
    rw [List.map_reverse, List.reverse_reverse, List.map_map]
    have hmap : (Nat.digits 10 n).map ((fun b => b - 48) ∘ fun d => d + 48) =
        Nat.digits 10 n := by
      rw [List.map_congr_left (g := id) (fun d _ => by simp), List.map_id]
    rw [hmap, Nat.ofDigits_digits]

theorem natToDecBytes_mem {n b : Nat} (hb : b ∈ natToDecBytes n) : 48 ≤ b ∧ b ≤ 57 := by
  rw [natToDecBytes_eq] at hb
  by_cases h0 : n = 0
  · simp [h0] at hb; omega
  · simp only [h0, if_false, List.mem_reverse, List.mem_map] at hb
    obtain ⟨d, hd, rfl⟩ := hb
    have := Nat.digits_lt_base (by norm_num : (1 : ℕ) < 10) hd
    omega

theorem natToDecBytes_ne_nil (n : Nat) : natToDecBytes n ≠ [] := by
  rw [natToDecBytes_eq]
  by_cases h0 : n = 0
  · simp [h0]
  · simp only [h0, if_false, ne_eq, List.reverse_eq_nil_iff, List.map_eq_nil_iff]
    exact Nat.digits_ne_nil_iff_ne_zero.mpr h0

theorem parseRustUIntCore_of_digits {s : Bytes} {bound : Nat} (hne : s ≠ [])
    (hd : ∀ b ∈ s, isDecDigit b = true) (hv : decValue s < bound) :
    parseRustUIntCore s bound = some (decValue s) := by
  unfold parseRustUIntCore
  rw [if_pos]
  simp only [Bool.and_eq_true, List.all_eq_true, decide_eq_true_eq]
  refine ⟨⟨?_, hd⟩, hv⟩
  simp [List.isEmpty_iff, hne]

theorem parseRustUInt_of_digits {s : Bytes} {bound : Nat} (hne : s ≠ [])
    (hd : ∀ b ∈ s, isDecDigit b = true) (hv : decValue s < bound) :
    parseRustUInt s bound = some (decValue s) := by
  unfold parseRustUInt
  rw [if_neg, parseRustUIntCore_of_digits hne hd hv]
  cases s with
  | nil => simp
  | cons b t =>
    have := hd b (List.mem_cons_self _ _)
    simp only [isDecDigit, Bool.and_eq_true, decide_eq_true_eq] at this
    simp
    omega

theorem parseRustUInt_natToDecBytes {n bound : Nat} (h : n < bound) :
    parseRustUInt (natToDecBytes n) bound = some n := by
  rw [parseRustUInt_of_digits (natToDecBytes_ne_nil n)
    (fun b hb => by
      have := natToDecBytes_mem hb
      simp [isDecDigit]; omega)
    (by rw [decValue_natToDecBytes]; exact h), decValue_natToDecBytes]

theorem validUtf8_of_ascii : ∀ {l : Bytes}, (∀ b ∈ l, b ≤ 127) → validUtf8 l = true := by
  intro l
  induction l with
  | nil => intro _; rfl
  | cons b r ih =>
    intro h
    show validUtf8Aux (b :: r) none = true
    unfold validUtf8Aux
    rw [if_pos (h b (List.mem_cons_self _ _))]
    exact ih (fun x hx => h x (List.mem_cons_of_mem _ hx))

theorem firstIdxOf_append {v : Nat} {l₁ : Bytes} (l₂ : Bytes) (h : v ∉ l₁) :
    firstIdxOf v (l₁ ++ v :: l₂) = some l₁.length := by
  induction l₁ with
  | nil => simp [firstIdxOf]
  | cons b t ih =>
    have hb : b ≠ v := fun e => h (e ▸ List.mem_cons_self _ _)
    have ht : v ∉ t := fun hv => h (List.mem_cons_of_mem _ hv)
    simp [firstIdxOf, hb, ih ht]

/-
The framing parser on a well-formed frame head: for ANY payload, with no
length cross-check.
-/

theorem parse_frame_ok {T S P : Bytes}
    (hTs : 32 ∉ T) (hTn : 0 ∉ T) (hTu : validUtf8 T = true)
    (hSne : S ≠ []) (hSd : ∀ b ∈ S, isDecDigit b = true)
    (hSv : decValue S < 2 ^ 64) :
    parse_metadata_and_data (T ++ 32 :: (S ++ 0 :: P)) = .ok (T, decValue S, P) := by
  have hS48 : ∀ b ∈ S, 48 ≤ b ∧ b ≤ 57 := fun b hb => by
    have := hSd b hb
    simp only [isDecDigit, Bool.and_eq_true, decide_eq_true_eq] at this
    exact this
  have hspace : firstIdxOf 32 (T ++ 32 :: (S ++ 0 :: P)) = some T.length :=
    firstIdxOf_append _ hTs
  have hassoc : T ++ 32 :: (S ++ 0 :: P) = (T ++ 32 :: S) ++ 0 :: P := by simp
  have hnul : firstIdxOf 0 (T ++ 32 :: (S ++ 0 :: P)) = some (T.length + (S.length + 1)) := by
    rw [hassoc]
    have hnot : (0 : Nat) ∉ T ++ 32 :: S := by
      simp only [List.mem_append, List.mem_cons]
      rintro (h | h | h)
      · exact hTn h
      · omega
      · have := hS48 _ h; omega
    rw [firstIdxOf_append P hnot]
    simp
  have htake : (T ++ 32 :: (S ++ 0 :: P)).take T.length = T := by
    simp
  have hdrop1 : (T ++ 32 :: (S ++ 0 :: P)).drop (T.length + 1) = S ++ 0 :: P := by
    have : T ++ 32 :: (S ++ 0 :: P) = (T ++ [32]) ++ (S ++ 0 :: P) := by simp
    rw [this]
    have hlen : (T ++ [32]).length = T.length + 1 := by simp
    rw [← hlen]
    exact List.drop_left _ _
  have hcond : ¬ T.length + (S.length + 1) < T.length + 1 := by omega
  have hsub : T.length + (S.length + 1) - (T.length + 1) = S.length := by omega
  have htakeS : (S ++ 0 :: P).take S.length = S := List.take_left S (0 :: P)
  have hdrop2 : (T ++ 32 :: (S ++ 0 :: P)).drop (T.length + (S.length + 1) + 1) = P := by
    have he : T ++ 32 :: (S ++ 0 :: P) = ((T ++ [32]) ++ (S ++ [0])) ++ P := by simp
    rw [he]
    have hlen : ((T ++ [32]) ++ (S ++ [0])).length = T.length + (S.length + 1) + 1 := by
      simp; omega
    rw [← hlen]
    exact List.drop_left _ _
  unfold parse_metadata_and_data
  rw [hspace, hnul]
  dsimp only
  rw [htake]
  rw [if_neg (by rw [hTu]; simp)]
  rw [if_neg hcond]
  rw [hdrop1, hsub, htakeS]
  rw [if_neg (by rw [validUtf8_of_ascii (fun b hb => by have := hS48 b hb; omega)]; simp)]
  rw [parseRustUInt_of_digits hSne hSd hSv]
  dsimp only
  rw [hdrop2]

/-
Theorems.  One theorem per claim of the specification, in claim order
where dependencies allow.
-/

/-- Claim C9: serializing the single index entry with mode 0o100644,
digest 123abc and path test_file.txt produces exactly the byte sequence
00 00 81 A4 06 31 32 33 61 62 63 00 0D 74 65 73 74 5F 66 69 6C 65 2E 74
78 74, and reading that byte sequence back reproduces the same entry
(write_index_entry / read_index_entry, src/index.rs). -/
theorem c9_index_entry_layout_roundtrip :
    write_index_entry ⟨0o100644, [0x31, 0x32, 0x33, 0x61, 0x62, 0x63],
        [0x74, 0x65, 0x73, 0x74, 0x5F, 0x66, 0x69, 0x6C, 0x65, 0x2E, 0x74, 0x78, 0x74]⟩ =
      [0x00, 0x00, 0x81, 0xA4, 0x06, 0x31, 0x32, 0x33, 0x61, 0x62, 0x63,
        0x00, 0x0D, 0x74, 0x65, 0x73, 0x74, 0x5F, 0x66, 0x69, 0x6C, 0x65, 0x2E, 0x74, 0x78, 0x74] ∧
    read_index_entry
        [0x00, 0x00, 0x81, 0xA4, 0x06, 0x31, 0x32, 0x33, 0x61, 0x62, 0x63,
          0x00, 0x0D, 0x74, 0x65, 0x73, 0x74, 0x5F, 0x66, 0x69, 0x6C, 0x65, 0x2E, 0x74, 0x78, 0x74] =
      .ok (⟨0o100644, [0x31, 0x32, 0x33, 0x61, 0x62, 0x63],
        [0x74, 0x65, 0x73, 0x74, 0x5F, 0x66, 0x69, 0x6C, 0x65, 0x2E, 0x74, 0x78, 0x74]⟩, []) :=
  ⟨by rfl, by rfl⟩

/-- Claim C4 (code bug): on an index file whose mode header was fully
read but whose next field runs short of its declared length (here: mode
00 00 81 A4, declared hash length 6, only one hash byte present),
load_index returns Ok with the entries read so far instead of reporting
the corrupt-index error that read_index_entry raises, because the
while-let-Ok loop swallows every error. -/
theorem c4_truncated_index_loads_ok :
    load_index (some [0x00, 0x00, 0x81, 0xA4, 0x06, 0x31]) = .ok [] ∧
    read_index_entry [0x00, 0x00, 0x81, 0xA4, 0x06, 0x31] = .error .unexpectedEof :=
  ⟨by rfl, by rfl⟩

/-- Claim C8 (code bug): deserialize_tree_entries does not report
malformed tree payloads as corruption errors; it panics.  A payload with
no space (mode scan runs off the end), one whose digest field has fewer
than 32 bytes after the NUL, and one whose mode is not a valid unsigned
decimal all reach a panic (out-of-bounds index or expect), never an
error return. -/
theorem c8_tree_parse_panics :
    deserialize_tree_entries [65] = .error .panicked ∧
    deserialize_tree_entries ([49, 54, 51, 56, 52, 32, 100, 105, 114, 0] ++
      List.replicate 31 7) = .error .panicked ∧
    deserialize_tree_entries ([120, 32, 97, 0] ++ List.replicate 32 7) =
      .error .panicked ∧
    deserialize_tree_entries ([49, 54, 51, 56, 52, 32, 100, 105, 114, 0] ++
      List.replicate 32 7) =
      .ok [⟨0o040000, treeT, hexEncode (List.replicate 32 7), [100, 105, 114]⟩] :=
  ⟨by rfl, by rfl, by rfl, by rfl⟩

/-- Claim C2 (code bug): rit_remove removes the repository exactly when
the trimmed confirmation input is NOT yes: on input no it removes, on
input yes it leaves the repository in place, the opposite of the claimed
confirmation behaviour. -/
theorem c2_remove_confirmation_inverted :
    rit_remove_removes [110, 111, 10] = true ∧
    rit_remove_removes [121, 101, 115, 10] = false := by
  constructor <;> decide

/-- Claim C10: with no index file on disk load_index succeeds with the
empty entry list, and every index mutation (add, bulk add, remove,
update) succeeds from that state. -/
theorem c10_missing_index_file_ops_succeed :
    load_index none = .ok [] ∧
    (∀ p h, (add_to_index none p h).isOk = true) ∧
    (∀ ps, (bulk_add_to_index none ps).isOk = true) ∧
    (∀ p, (remove_from_index none p).isOk = true) ∧
    (∀ p h, (update_index none p h).isOk = true) := by
  refine ⟨rfl, ?_, ?_, ?_, ?_⟩ <;> intros <;>
    simp [add_to_index, bulk_add_to_index, remove_from_index, update_index,
      load_index, Except.isOk, Except.toBool, bind, Except.bind]

/-- Claim C5 counterexample: the frame blob 5 NUL ab declares payload
length 5 but carries a 2-byte payload, and parse_metadata_and_data
accepts it instead of returning a corruption error. -/
theorem c5_counterexample_mismatch_accepted :
    parse_metadata_and_data (blobT ++ [32, 53, 0, 97, 98]) = .ok (blobT, 5, [97, 98]) ∧
    ([97, 98] : Bytes).length ≠ 5 := ⟨by rfl, by decide⟩

/-- Claim C5 (corrected): the framing parser does NOT compare the
declared decimal length against the actual payload byte count.  For
every type tag without space/NUL bytes that is valid UTF-8 and every
non-empty decimal length field below 2^64, parsing succeeds on EVERY
payload, returning the declared length and the actual payload bytes
unchanged; only a missing space, a missing NUL, invalid UTF-8 or a
non-numeric length field is rejected. -/
theorem c5_framing_parser_ignores_declared_length (T S P : Bytes)
    (hTs : 32 ∉ T) (hTn : 0 ∉ T) (hTu : validUtf8 T = true)
    (hSne : S ≠ []) (hSd : ∀ b ∈ S, isDecDigit b = true)
    (hSv : decValue S < 2 ^ 64) :
    parse_metadata_and_data (T ++ 32 :: (S ++ 0 :: P)) = .ok (T, decValue S, P) :=
  parse_frame_ok hTs hTn hTu hSne hSd hSv

/-- Witness for claim C5 at the concrete frame blob 5 NUL ab. -/
theorem c5_witness :
    (32 ∉ blobT) ∧ (0 ∉ blobT) ∧ validUtf8 blobT = true ∧
    parse_metadata_and_data (blobT ++ 32 :: ([53] ++ 0 :: [97, 98])) =
      .ok (blobT, decValue [53], [97, 98]) :=
  ⟨by decide, by decide, by decide,
    c5_framing_parser_ignores_declared_length blobT [53] [97, 98]
      (by decide) (by decide) (by decide) (by decide) (by decide) (by norm_num [decValue])⟩

/-- Claim C1: storing payload B with a type tag from the closed set and
reading the returned key back yields exactly the triple (tag, length of
B, B).  The compressor round-trip is the zstd contract; the store-slot
hypothesis is the content-address invariant (the key slot is either
still free or holds this frame, which hash collision resistance
guarantees). -/
theorem c1_store_get_roundtrip
    (hash compress : Bytes → Bytes) (uncompress : Bytes → Except IoErr Bytes)
    (s : Store) (B T : Bytes)
    (hT : T = blobT ∨ T = treeT ∨ T = commitT)
    (hrt : ∀ x, uncompress (compress x) = .ok x)
    (hB : B.length < 2 ^ 64)
    (hs : s (hash (frameOf T B)) = none ∨
          s (hash (frameOf T B)) = some (compress (frameOf T B))) :
    get_data uncompress (store_data hash compress s B T).2 (store_data hash compress s B T).1 =
      .ok (T, B.length, B) := by
  have hparse : parse_metadata_and_data (frameOf T B) = .ok (T, B.length, B) := by
    have h := parse_frame_ok (T := T) (S := natToDecBytes B.length) (P := B)
      (by rcases hT with rfl | rfl | rfl <;> decide)
      (by rcases hT with rfl | rfl | rfl <;> decide)
      (by rcases hT with rfl | rfl | rfl <;> decide)
      (natToDecBytes_ne_nil _)
      (fun b hb => by
        have := natToDecBytes_mem hb
        simp [isDecDigit]; omega)
      (by rw [decValue_natToDecBytes]; exact hB)
    rw [decValue_natToDecBytes] at h
    exact h
  unfold store_data get_data
  dsimp only
  rcases hs with h | h
  · rw [h]
    dsimp only
    rw [show (storeInsert s (hash (frameOf T B)) (compress (frameOf T B)))
          (hash (frameOf T B)) = some (compress (frameOf T B)) by simp [storeInsert]]
    dsimp only
    rw [hrt]
    dsimp only
    exact hparse
  · rw [h]
    dsimp only
    rw [h]
    dsimp only
    rw [hrt]
    dsimp only
    exact hparse

/-- Witness for claim C1 with the identity compressor, an empty store
and a concrete hash function. -/
theorem c1_witness :
    (∀ x, (fun y => (Except.ok y : Except IoErr Bytes)) ((fun y => y) x) = .ok x) ∧
    get_data (fun y => Except.ok y)
        (store_data (fun y => y) (fun y => y) (fun _ => none) [97] blobT).2
        (store_data (fun y => y) (fun y => y) (fun _ => none) [97] blobT).1 =
      .ok (blobT, 1, [97]) :=
  ⟨fun _ => rfl,
    c1_store_get_roundtrip (fun y => y) (fun y => y) (fun y => Except.ok y) (fun _ => none)
      [97] blobT (Or.inl rfl) (fun _ => rfl) (by norm_num) (Or.inl rfl)⟩

/-
Association-list lemmas for the status classification (claim C3).
-/

theorem alLookup_alInsert_self {α : Type} (k : Bytes) (v : α) (m : List (Bytes × α)) :
    alLookup k (alInsert k v m) = some v := by
  induction m with
  | nil => simp [alInsert, alLookup]
  | cons p t ih =>
    obtain ⟨k1, v1⟩ := p
    by_cases h : k1 = k
    · simp [alInsert, alLookup, h]
    · simp [alInsert, alLookup, h, ih]

theorem alLookup_alInsert_ne {α : Type} {k k1 : Bytes} (h : k1 ≠ k) (v : α)
    (m : List (Bytes × α)) : alLookup k1 (alInsert k v m) = alLookup k1 m := by
  induction m with
  | nil =>
    simp only [alInsert, alLookup]
    rw [if_neg (fun e => h e.symm)]
  | cons p t ih =>
    obtain ⟨k2, v2⟩ := p
    simp only [alInsert]
    by_cases h2 : k2 = k
    · rw [if_pos h2]
      subst h2
      simp only [alLookup]
      rw [if_neg (fun e => h e.symm), if_neg (fun e => h e.symm)]
    · rw [if_neg h2]
      simp only [alLookup]
      by_cases h1 : k2 = k1
      · rw [if_pos h1, if_pos h1]
      · rw [if_neg h1, if_neg h1, ih]

/-- Looking up a key that no processed entry carries passes through the
insert fold. -/
theorem alLookup_fold_insert_not_mem {α β : Type} (pathOf : β → Bytes) (val : β → α)
    (l : List β) (m : List (Bytes × α)) (k : Bytes) (h : ∀ e ∈ l, pathOf e ≠ k) :
    alLookup k (l.foldl (fun m e => alInsert (pathOf e) (val e) m) m) = alLookup k m := by
  induction l generalizing m with
  | nil => rfl
  | cons a t ih =>
    rw [List.foldl_cons, ih _ (fun e he => h e (List.mem_cons_of_mem _ he)),
      alLookup_alInsert_ne (h a (List.mem_cons_self _ _)).symm]

/-- With no duplicate keys among the processed entries, the fold stores
exactly the value of the entry carrying the key. -/
theorem alLookup_fold_insert_mem {α β : Type} (pathOf : β → Bytes) (val : β → α)
    (l : List β) (m : List (Bytes × α)) (k : Bytes)
    (hn : (l.map pathOf).Nodup) (e : β) (hel : e ∈ l) (he : pathOf e = k) :
    alLookup k (l.foldl (fun m e => alInsert (pathOf e) (val e) m) m) = some (val e) := by
  induction l generalizing m with
  | nil => cases hel
  | cons a t ih =>
    rw [List.map_cons, List.nodup_cons] at hn
    rw [List.foldl_cons]
    by_cases hak : pathOf a = k
    · have hea : e = a := by
        rcases List.mem_cons.mp hel with rfl | het
        · rfl
        · exact absurd (by rw [hak, ← he]; exact List.mem_map_of_mem pathOf het) hn.1
      subst hea
      rw [alLookup_fold_insert_not_mem pathOf val t _ k
          (fun x hx hxk => hn.1 (by rw [hak, ← hxk]; exact List.mem_map_of_mem pathOf hx)),
        ← hak, alLookup_alInsert_self]
    · have het : e ∈ t := by
        rcases List.mem_cons.mp hel with rfl | het
        · exact absurd he hak
        · exact het
      exact ih _ hn.2 het

/-- A conditional insert fold equals the plain fold over the filtered
list. -/
theorem foldl_insert_filter {α β : Type} (pathOf : β → Bytes) (val : β → α)
    (cond : β → Bool) (l : List β) (m : List (Bytes × α)) :
    l.foldl (fun m e => if cond e then m else alInsert (pathOf e) (val e) m) m =
      (l.filter (fun e => !cond e)).foldl (fun m e => alInsert (pathOf e) (val e) m) m := by
  induction l generalizing m with
  | nil => rfl
  | cons a t ih =>
    by_cases h : cond a <;> simp [List.foldl_cons, h, ih]

/-- check_for_changes as two insert folds, in the shape the fold lemmas
consume. -/
theorem check_for_changes_eq (previous current : List IndexEntry) :
    check_for_changes previous current =
      (previous.filter
          (fun e => !(alLookup e.path (hashMapOf current)).isSome)).foldl
        (fun m e => alInsert e.path deletedL m)
        (current.foldl
          (fun m e => alInsert e.path (stagedLabel (hashMapOf previous) e) m) []) := by
  unfold check_for_changes
  dsimp only
  rw [show (fun (ch : List (Bytes × Bytes)) (e : IndexEntry) =>
        match alLookup e.path (hashMapOf previous) with
        | some prev_hash =>
          if prev_hash = e.blob_hash then alInsert e.path unmodifiedL ch
          else alInsert e.path modifiedL ch
        | none => alInsert e.path newFileL ch) =
      (fun ch e => alInsert e.path (stagedLabel (hashMapOf previous) e) ch) from
    funext fun ch => funext fun e => by
      unfold stagedLabel
      cases alLookup e.path (hashMapOf previous) with
      | none => rfl
      | some ph => by_cases h : ph = e.blob_hash <;> simp [h]]
  exact foldl_insert_filter (·.path) (fun _ => deletedL)
    (fun e => (alLookup e.path (hashMapOf current)).isSome) previous _

/-- Claim C3 counterexample: a path present only in the index (current
side) is labelled new file by the staged classification, not added. -/
theorem c3_counterexample_added_is_new_file :
    alLookup [99] (check_for_changes [] [⟨0o100644, [104], [99]⟩]) = some newFileL ∧
    newFileL ≠ addedL := ⟨by rfl, by decide⟩

/-- Claim C3 (corrected): in the staged classification (HEAD tree as
previous, index as current), a path present only in the index is
labelled new file (the label added never occurs), a path present only in
the HEAD tree is labelled deleted, and a path present in both with
differing digests is labelled modified.  Paths are unique per side, the
index/tree invariant. -/
theorem c3_staged_classification (previous current : List IndexEntry)
    (hp : (previous.map (·.path)).Nodup) (hc : (current.map (·.path)).Nodup)
    (p : Bytes) :
    ((∃ e ∈ current, e.path = p) → (∀ e ∈ previous, e.path ≠ p) →
      alLookup p (check_for_changes previous current) = some newFileL) ∧
    ((∃ e ∈ previous, e.path = p) → (∀ e ∈ current, e.path ≠ p) →
      alLookup p (check_for_changes previous current) = some deletedL) ∧
    (∀ e ∈ current, ∀ e1 ∈ previous, e.path = p → e1.path = p →
      e.blob_hash ≠ e1.blob_hash →
      alLookup p (check_for_changes previous current) = some modifiedL) := by
  rw [check_for_changes_eq]
  refine ⟨?_, ?_, ?_⟩
  · rintro ⟨e, hec, rfl⟩ hprev
    rw [alLookup_fold_insert_not_mem _ _ _ _ _
        (fun x hx => hprev x (List.mem_of_mem_filter hx)),
      alLookup_fold_insert_mem (·.path) _ current [] e.path hc e hec rfl]
    unfold stagedLabel hashMapOf
    rw [alLookup_fold_insert_not_mem _ _ _ _ _ hprev]
    rfl
  · rintro ⟨e, hep, rfl⟩ hcur
    have hkeep : e ∈ previous.filter
        (fun x => !(alLookup x.path (hashMapOf current)).isSome) := by
      refine List.mem_filter.mpr ⟨hep, ?_⟩
      unfold hashMapOf
      rw [alLookup_fold_insert_not_mem _ _ _ _ _ hcur]
      rfl
    have hnf : ((previous.filter
        (fun x => !(alLookup x.path (hashMapOf current)).isSome)).map (·.path)).Nodup :=
      hp.sublist ((List.filter_sublist _).map _)
    exact alLookup_fold_insert_mem (·.path) (fun _ => deletedL) _ _ e.path hnf e hkeep rfl
  · rintro e hec e1 hep rfl h1p hne
    have hcurLookup : alLookup e.path (hashMapOf current) = some e.blob_hash := by
      unfold hashMapOf
      exact alLookup_fold_insert_mem (·.path) (·.blob_hash) current [] e.path hc e hec rfl
    have hfilter : ∀ x ∈ previous.filter
        (fun x => !(alLookup x.path (hashMapOf current)).isSome), x.path ≠ e.path := by
      intro x hx hxp
      have hcond := (List.mem_filter.mp hx).2
      rw [hxp, hcurLookup] at hcond
      simp at hcond
    rw [alLookup_fold_insert_not_mem _ _ _ _ _ hfilter,
      alLookup_fold_insert_mem (·.path) _ current [] e.path hc e hec rfl]
    unfold stagedLabel
    rw [show alLookup e.path (hashMapOf previous) = some e1.blob_hash from by
      unfold hashMapOf
      exact alLookup_fold_insert_mem (·.path) (·.blob_hash) previous [] e.path hp e1 hep h1p]
    dsimp only
    rw [if_neg (fun h => hne h.symm)]

/-- Witness for claim C3 on concrete previous/current entry lists
covering the new-file, modified and deleted cases. -/
theorem c3_witness :
    alLookup [98] (check_for_changes [⟨33188, [104], [97]⟩]
        [⟨33188, [105], [97]⟩, ⟨33188, [106], [98]⟩]) = some newFileL ∧
    alLookup [97] (check_for_changes [⟨33188, [104], [97]⟩]
        [⟨33188, [105], [97]⟩, ⟨33188, [106], [98]⟩]) = some modifiedL ∧
    alLookup [99] (check_for_changes [⟨33188, [104], [99]⟩] []) = some deletedL :=
  ⟨(c3_staged_classification [⟨33188, [104], [97]⟩]
      [⟨33188, [105], [97]⟩, ⟨33188, [106], [98]⟩] (by decide) (by decide) [98]).1
      ⟨⟨33188, [106], [98]⟩, by decide, rfl⟩ (by decide),
    (c3_staged_classification [⟨33188, [104], [97]⟩]
      [⟨33188, [105], [97]⟩, ⟨33188, [106], [98]⟩] (by decide) (by decide) [97]).2.2
      ⟨33188, [105], [97]⟩ (by decide) ⟨33188, [104], [97]⟩ (by decide) rfl rfl (by decide),
    (c3_staged_classification [⟨33188, [104], [99]⟩] [] (by decide) (by decide) [99]).2.1
      ⟨⟨33188, [104], [99]⟩, by decide, rfl⟩ (by decide)⟩

/-
Line and whitespace lemmas for the commit parser (claim C7).
-/

theorem splitOnByte_ne_nil (sep : Nat) (l : Bytes) : splitOnByte sep l ≠ [] := by
  cases l with
  | nil => simp [splitOnByte]
  | cons b r =>
    unfold splitOnByte
    by_cases h : b = sep
    · simp [h]
    · rw [if_neg h]
      cases splitOnByte sep r <;> simp

theorem splitOnByte_cons_ne {sep b : Nat} (r : Bytes) (h : b ≠ sep) :
    splitOnByte sep (b :: r) =
      (b :: (splitOnByte sep r).headI) :: (splitOnByte sep r).tail := by
  rcases hs : splitOnByte sep r with _ | ⟨p, t⟩
  · exact absurd hs (splitOnByte_ne_nil sep r)
  · rw [splitOnByte.eq_def]
    dsimp only
    rw [if_neg h, hs]
    simp [List.headI]

theorem splitOnByte_append {sep : Nat} {l1 : Bytes} (l2 : Bytes) (h : sep ∉ l1) :
    splitOnByte sep (l1 ++ sep :: l2) = l1 :: splitOnByte sep l2 := by
  induction l1 with
  | nil => simp [splitOnByte]
  | cons b t ih =>
    have hb : b ≠ sep := fun e => h (e ▸ List.mem_cons_self _ _)
    have ht : sep ∉ t := fun hs => h (List.mem_cons_of_mem _ hs)
    rw [List.cons_append, splitOnByte_cons_ne _ hb, ih ht]
    simp [List.headI]

theorem joinLines_cons (p : Bytes) (t : List Bytes) :
    joinLines (p :: t) = p ++ 10 :: joinLines t := by
  simp [joinLines]

theorem joinLines_splitOnByte (m : Bytes) :
    joinLines (splitOnByte 10 m) = m ++ [10] := by
  induction m with
  | nil => rfl
  | cons b r ih =>
    by_cases h : b = 10
    · subst h
      show joinLines ([] :: splitOnByte 10 r) = 10 :: (r ++ [10])
      rw [joinLines_cons, ih]
      rfl
    · rcases hs : splitOnByte 10 r with _ | ⟨p, t⟩
      · exact absurd hs (splitOnByte_ne_nil 10 r)
      · rw [hs] at ih
        rw [joinLines_cons] at ih
        rw [splitOnByte_cons_ne _ h, hs]
        simp only [List.headI, List.tail]
        rw [joinLines_cons]
        show b :: (p ++ 10 :: joinLines t) = b :: (r ++ [10])
        rw [ih]

theorem splitOnByte_append_two_le {sep : Nat} (l1 l2 : Bytes) :
    2 ≤ (splitOnByte sep (l1 ++ sep :: l2)).length := by
  induction l1 with
  | nil =>
    show 2 ≤ (splitOnByte sep (sep :: l2)).length
    unfold splitOnByte
    rw [if_pos rfl]
    rcases hs : splitOnByte sep l2 with _ | ⟨p, t⟩
    · exact absurd hs (splitOnByte_ne_nil _ _)
    · simp
  | cons b t ih =>
    rw [List.cons_append]
    unfold splitOnByte
    by_cases h : b = sep
    · rw [if_pos h]
      rcases hs : splitOnByte sep (t ++ sep :: l2) with _ | ⟨p, q⟩
      · exact absurd hs (splitOnByte_ne_nil _ _)
      · simp
    · rw [if_neg h]
      rcases hs : splitOnByte sep (t ++ sep :: l2) with _ | ⟨p, q⟩
      · exact absurd hs (splitOnByte_ne_nil _ _)
      · rw [hs] at ih
        simpa using ih

theorem joinLines_dropLast_splitOnByte (m1 : Bytes) :
    joinLines ((splitOnByte 10 (m1 ++ [10])).dropLast) = m1 ++ [10] := by
  induction m1 with
  | nil => rfl
  | cons b r ih =>
    by_cases h : b = 10
    · subst h
      show joinLines (([] :: splitOnByte 10 (r ++ [10])).dropLast) = 10 :: (r ++ [10])
      rw [List.dropLast_cons_of_ne_nil (splitOnByte_ne_nil 10 (r ++ [10]))]
      rw [joinLines_cons, ih]
      rfl
    · rcases hs : splitOnByte 10 (r ++ [10]) with _ | ⟨p, t⟩
      · exact absurd hs (splitOnByte_ne_nil _ _)
      · have ht : t ≠ [] := by
          have h2 := @splitOnByte_append_two_le 10 r []
          rw [hs] at h2
          intro he
          subst he
          simp at h2
        rw [hs] at ih
        rw [List.dropLast_cons_of_ne_nil ht] at ih
        rw [joinLines_cons] at ih
        rw [List.cons_append, splitOnByte_cons_ne _ h, hs]
        simp only [List.headI, List.tail]
        rw [List.dropLast_cons_of_ne_nil ht]
        rw [joinLines_cons]
        show b :: (p ++ 10 :: joinLines t.dropLast) = b :: (r ++ [10])
        rw [ih]

theorem mem_of_mem_splitOnByte {sep : Nat} {l piece : Bytes} (hp : piece ∈ splitOnByte sep l)
    {b : Nat} (hb : b ∈ piece) : b ∈ l := by
  induction l generalizing piece with
  | nil =>
    simp [splitOnByte] at hp
    subst hp
    cases hb
  | cons c r ih =>
    unfold splitOnByte at hp
    by_cases h : c = sep
    · rw [if_pos h] at hp
      rcases List.mem_cons.mp hp with rfl | hp2
      · cases hb
      · exact List.mem_cons_of_mem _ (ih hp2 hb)
    · rw [if_neg h] at hp
      rcases hs : splitOnByte sep r with _ | ⟨p, t⟩
      · exact absurd hs (splitOnByte_ne_nil _ _)
      · rw [hs] at hp
        rcases List.mem_cons.mp hp with rfl | hp2
        · rcases List.mem_cons.mp hb with rfl | hb2
          · exact List.mem_cons_self _ _
          · exact List.mem_cons_of_mem _ (ih (hs ▸ List.mem_cons_self p t) hb2)
        · exact List.mem_cons_of_mem _ (ih (hs ▸ List.mem_cons_of_mem p hp2) hb)

theorem stripCR_of_no_cr {l : Bytes} (h : (13 : Nat) ∉ l) : stripCR l = l := by
  unfold stripCR
  rw [if_neg]
  intro he
  exact h (List.mem_of_getLast?_eq_some he)

theorem trimEndBytes_append_ws {w : Nat} (hw : isWsB w = true) (l : Bytes) :
    trimEndBytes (l ++ [w]) = trimEndBytes l := by
  unfold trimEndBytes
  rw [List.reverse_append]
  simp [List.dropWhile, hw]

theorem linesOf_header (h rest : Bytes) (h10 : (10 : Nat) ∉ h) (h13 : (13 : Nat) ∉ h) :
    linesOf (h ++ 10 :: rest) = h :: linesOf rest := by
  have hsplit := @splitOnByte_append 10 h rest h10
  have hscr : stripCR h = h := stripCR_of_no_cr h13
  cases rest with
  | nil =>
    have hlast : ((h ++ [10]) : Bytes).getLast? = some 10 := by
      rw [List.getLast?_append]
      rfl
    unfold linesOf
    rw [if_neg (by simp), hlast, if_pos rfl, hsplit]
    rw [List.dropLast_cons_of_ne_nil (splitOnByte_ne_nil _ _)]
    simp [hscr, splitOnByte]
  | cons a b =>
    have hlast : (h ++ 10 :: a :: b).getLast? = (a :: b).getLast? := by
      rw [List.getLast?_append, List.getLast?_cons_cons,
        Option.or_of_isSome (List.getLast?_isSome.mpr (by simp))]
    by_cases hl : ((a :: b : Bytes)).getLast? = some 10
    · unfold linesOf
      rw [if_neg (by simp : ¬(h ++ 10 :: a :: b) = []), hlast, if_pos hl,
        if_neg (by simp : ¬(a :: b : Bytes) = []), if_pos hl, hsplit,
        List.dropLast_cons_of_ne_nil (splitOnByte_ne_nil _ _), List.map_cons, hscr]
    · unfold linesOf
      rw [if_neg (by simp : ¬(h ++ 10 :: a :: b) = []), hlast, if_neg hl,
        if_neg (by simp : ¬(a :: b : Bytes) = []), if_neg hl, hsplit, List.map_cons, hscr]

theorem splitAtFirst_append {sep : Nat} {pre : Bytes} (post : Bytes) (h : sep ∉ pre) :
    splitAtFirst sep (pre ++ sep :: post) = some (pre, post) := by
  induction pre with
  | nil => simp [splitAtFirst]
  | cons b t ih =>
    have hb : b ≠ sep := fun e => h (e ▸ List.mem_cons_self _ _)
    rw [List.cons_append, splitAtFirst.eq_def]
    dsimp only
    rw [if_neg hb, ih (fun hs => h (List.mem_cons_of_mem _ hs))]

theorem intercalate_cons_cons (sep x y : Bytes) (zs : List Bytes) :
    List.intercalate sep (x :: y :: zs) = x ++ sep ++ List.intercalate sep (y :: zs) := by
  simp [List.intercalate]

theorem intercalate_single (sep x : Bytes) : List.intercalate sep [x] = x := by
  simp [List.intercalate]

theorem splitWsAux_token (t : Bytes) (ht : ∀ b ∈ t, isWsB b = false) (rest cur : Bytes) :
    splitWsAux (t ++ rest) cur = splitWsAux rest (t.reverse ++ cur) := by
  induction t generalizing cur with
  | nil => simp
  | cons b q ih =>
    rw [List.cons_append, splitWsAux.eq_def]
    dsimp only
    rw [if_neg (by rw [ht b (List.mem_cons_self _ _)]; simp),
      ih (fun x hx => ht x (List.mem_cons_of_mem _ hx))]
    simp

theorem splitWsAux_all_token (t : Bytes) (ht : ∀ b ∈ t, isWsB b = false) (hne : t ≠ []) :
    splitWsAux t [] = [t] := by
  rw [← List.append_nil t, splitWsAux_token t ht [] []]
  rw [splitWsAux.eq_def]
  dsimp only
  rw [if_neg (by simp [hne])]
  simp

theorem splitWs_intercalate_extra (toks : List Bytes) (w : Bytes)
    (hne : ∀ t ∈ toks, t ≠ []) (hws : ∀ t ∈ toks, ∀ b ∈ t, isWsB b = false)
    (h : toks ≠ []) (hwne : w ≠ []) (hww : ∀ b ∈ w, isWsB b = false) :
    splitWs (List.intercalate [32] toks ++ 32 :: w) = toks ++ [w] := by
  induction toks with
  | nil => cases h rfl
  | cons t rest ih =>
    have htks : ∀ b ∈ t, isWsB b = false := hws t (List.mem_cons_self _ _)
    have htne : t ≠ [] := hne t (List.mem_cons_self _ _)
    cases rest with
    | nil =>
      rw [intercalate_single]
      unfold splitWs
      rw [splitWsAux_token t htks]
      rw [splitWsAux.eq_def]
      dsimp only
      rw [if_pos (show isWsB 32 = true by decide), if_neg (by simp [htne])]
      rw [splitWsAux_all_token w hww hwne]
      simp
    | cons t2 rest2 =>
      rw [intercalate_cons_cons, List.append_assoc, List.append_assoc]
      unfold splitWs
      rw [show ([32] : Bytes) ++ (List.intercalate [32] (t2 :: rest2) ++ 32 :: w) =
        32 :: (List.intercalate [32] (t2 :: rest2) ++ 32 :: w) from rfl]
      rw [splitWsAux_token t htks]
      rw [splitWsAux.eq_def]
      dsimp only
      rw [if_pos (show isWsB 32 = true by decide), if_neg (by simp [htne])]
      rw [show splitWsAux (List.intercalate [32] (t2 :: rest2) ++ 32 :: w) [] =
        splitWs (List.intercalate [32] (t2 :: rest2) ++ 32 :: w) from rfl]
      rw [ih (fun x hx => hne x (List.mem_cons_of_mem _ hx))
        (fun x hx => hws x (List.mem_cons_of_mem _ hx)) (by simp)]
      simp

theorem foldl_deserLine_message (ls : List Bytes) :
    ∀ st : DeserState, st.in_message = true →
      ls.foldl deserLine st = { st with message := st.message ++ joinLines ls } := by
  induction ls with
  | nil =>
    intro st h
    simp [joinLines]
  | cons l t ih =>
    intro st h
    rw [List.foldl_cons]
    have hstep : deserLine st l = { st with message := st.message ++ (l ++ [10]) } := by
      unfold deserLine
      rw [if_pos h]
      simp
    rw [hstep, ih _ (by simp [h])]
    simp [joinLines_cons]

theorem trimEnd_joinLines_linesOf {m : Bytes} (h13 : (13 : Nat) ∉ m) :
    trimEndBytes (joinLines (linesOf m)) = trimEndBytes m := by
  by_cases h0 : m = []
  · subst h0; rfl
  · have hid : ∀ piece ∈ splitOnByte 10 m, stripCR piece = piece := fun piece hp =>
      stripCR_of_no_cr (fun hb => h13 (mem_of_mem_splitOnByte hp hb))
    unfold linesOf
    rw [if_neg h0]
    by_cases hl : m.getLast? = some 10
    · rw [if_pos hl]
      have hm : m.dropLast ++ [10] = m := by
        have := List.dropLast_concat_getLast h0
        rwa [show m.getLast h0 = 10 from by
          have h2 := List.getLast?_eq_getLast m h0
          rw [hl] at h2
          exact (Option.some_inj.mp h2).symm] at this
      rw [List.map_dropLast, List.map_congr_left hid, List.map_id', ← hm,
        joinLines_dropLast_splitOnByte]
    · rw [if_neg hl, List.map_congr_left hid, List.map_id', joinLines_splitOnByte,
        trimEndBytes_append_ws (by decide)]

theorem mem_intercalate_sep {b : Nat} {toks : List Bytes}
    (hb : b ∈ List.intercalate [32] toks) : b = 32 ∨ ∃ t ∈ toks, b ∈ t := by
  induction toks with
  | nil => simp [List.intercalate] at hb
  | cons t rest ih =>
    cases rest with
    | nil =>
      rw [intercalate_single] at hb
      exact Or.inr ⟨t, List.mem_cons_self _ _, hb⟩
    | cons t2 r2 =>
      rw [intercalate_cons_cons] at hb
      rcases List.mem_append.mp hb with h1 | h2
      · rcases List.mem_append.mp h1 with h3 | h4
        · exact Or.inr ⟨t, List.mem_cons_self _ _, h3⟩
        · exact Or.inl (List.mem_singleton.mp h4)
      · rcases ih h2 with h5 | ⟨u, hu, hbu⟩
        · exact Or.inl h5
        · exact Or.inr ⟨u, List.mem_cons_of_mem _ hu, hbu⟩

/-- Claim C7 counterexample: serializing the commit with the one-token
committer identity a and timestamp 5 and deserializing it yields
committer a 5 and timestamp 0 (the committer line is only split when it
has more than two whitespace-separated tokens), so the identity and the
timestamp are not recovered. -/
theorem c7_counterexample_single_token_committer :
    (Commit.deserialize (Commit.serialize ⟨[84], none, [97], [109], 5⟩)).committer =
        [97, 32, 53] ∧
    (Commit.deserialize (Commit.serialize ⟨[84], none, [97], [109], 5⟩)).timestamp = 0 ∧
    ([97, 32, 53] : Bytes) ≠ [97] ∧ (0 : Nat) ≠ 5 :=
  ⟨by rfl, by rfl, by decide, by decide⟩

/-- Claim C7 (corrected): the commit serialization round-trip holds once
the committer identity consists of at least TWO single-space-separated
whitespace-free tokens (a single-token identity breaks, as the
counterexample shows), and the message is recovered up to trimming ALL
trailing ASCII whitespace, not just one newline.  Tree and parent
digests must not contain line breaks, the message no carriage return,
and the timestamp must fit in a u64. -/
theorem c7_commit_roundtrip (c : Commit) (toks : List Bytes)
    (htoks : c.committer = List.intercalate [32] toks)
    (htl : 2 ≤ toks.length)
    (htne : ∀ t ∈ toks, t ≠ [])
    (htw : ∀ t ∈ toks, ∀ b ∈ t, isWsB b = false)
    (htr10 : (10 : Nat) ∉ c.tree) (htr13 : (13 : Nat) ∉ c.tree)
    (hpar : ∀ p, c.parent = some p → (10 : Nat) ∉ p ∧ (13 : Nat) ∉ p)
    (hmsg13 : (13 : Nat) ∉ c.message)
    (hts : c.timestamp < 2 ^ 64) :
    Commit.deserialize (Commit.serialize c) =
      ⟨c.tree, c.parent, c.committer, trimEndBytes c.message, c.timestamp⟩ := by
  have htoksne : toks ≠ [] := by intro he; subst he; simp at htl
  have htsbne : natToDecBytes c.timestamp ≠ [] := natToDecBytes_ne_nil _
  have htsbws : ∀ b ∈ natToDecBytes c.timestamp, isWsB b = false := fun b hb => by
    have := natToDecBytes_mem hb
    simp [isWsB]
    omega
  have hcomws : ∀ x : Nat, isWsB x = true → x ≠ 32 → x ∉ c.committer := by
    intro x hx hx32 hmem
    rw [htoks] at hmem
    rcases mem_intercalate_sep hmem with h | ⟨t, ht, hbt⟩
    · exact hx32 h
    · rw [htw t ht x hbt] at hx
      cases hx
  have hline1_10 : (10 : Nat) ∉ treeT ++ 32 :: c.tree := by
    intro hmem
    rcases List.mem_append.mp hmem with h | h
    · revert h; decide
    · rcases List.mem_cons.mp h with h | h
      · cases h
      · exact htr10 h
  have hline1_13 : (13 : Nat) ∉ treeT ++ 32 :: c.tree := by
    intro hmem
    rcases List.mem_append.mp hmem with h | h
    · revert h; decide
    · rcases List.mem_cons.mp h with h | h
      · cases h
      · exact htr13 h
  have hline3_10 : (10 : Nat) ∉
      committerKW ++ 32 :: (c.committer ++ 32 :: natToDecBytes c.timestamp) := by
    intro hmem
    rcases List.mem_append.mp hmem with h | h
    · revert h; decide
    · rcases List.mem_cons.mp h with h | h
      · cases h
      · rcases List.mem_append.mp h with h | h
        · exact hcomws 10 (by decide) (by decide) h
        · rcases List.mem_cons.mp h with h | h
          · cases h
          · have := natToDecBytes_mem h; omega
  have hline3_13 : (13 : Nat) ∉
      committerKW ++ 32 :: (c.committer ++ 32 :: natToDecBytes c.timestamp) := by
    intro hmem
    rcases List.mem_append.mp hmem with h | h
    · revert h; decide
    · rcases List.mem_cons.mp h with h | h
      · cases h
      · rcases List.mem_append.mp h with h | h
        · exact hcomws 13 (by decide) (by decide) h
        · rcases List.mem_cons.mp h with h | h
          · cases h
          · have := natToDecBytes_mem h; omega
  have hml : linesOf (10 :: c.message) = [] :: linesOf c.message := by
    have := linesOf_header [] c.message (by simp) (by simp)
    simpa using this
  have hlen : 2 < (toks ++ [natToDecBytes c.timestamp]).length := by
    simp
    omega
  have hsplitv : splitWs (c.committer ++ 32 :: natToDecBytes c.timestamp) =
      toks ++ [natToDecBytes c.timestamp] := by
    rw [htoks]
    exact splitWs_intercalate_extra toks _ htne htw htoksne htsbne htsbws
  have hcommstep : ∀ tr pa,
      deserLine ⟨tr, pa, [], 0, [], false⟩
          (committerKW ++ 32 :: (c.committer ++ 32 :: natToDecBytes c.timestamp)) =
        ⟨tr, pa, c.committer, c.timestamp, [], false⟩ := by
    intro tr pa
    unfold deserLine splitN2Space
    rw [splitAtFirst_append _ (by decide : (32 : Nat) ∉ committerKW)]
    dsimp only
    rw [if_neg (by simp), if_neg (by simp), if_neg (by decide), if_neg (by decide),
      if_pos rfl, hsplitv, if_pos hlen, List.dropLast_concat, List.getLastD_concat,
      parseRustUInt_natToDecBytes hts, htoks]
    rfl
  have htreestep : deserLine ⟨[], none, [], 0, [], false⟩ (treeT ++ 32 :: c.tree) =
      ⟨c.tree, none, [], 0, [], false⟩ := by
    unfold deserLine splitN2Space
    rw [splitAtFirst_append _ (by decide : (32 : Nat) ∉ treeT)]
    dsimp only
    rw [if_neg (by simp), if_neg (by simp), if_pos rfl]
  have hblankstep : ∀ tr pa co ts,
      deserLine ⟨tr, pa, co, ts, [], false⟩ ([] : Bytes) =
        ⟨tr, pa, co, ts, [], true⟩ := by
    intro tr pa co ts
    unfold deserLine
    rw [if_neg (by simp), if_pos rfl]
  have hmsgfold : ∀ tr pa co ts,
      (linesOf c.message).foldl deserLine ⟨tr, pa, co, ts, [], true⟩ =
        ⟨tr, pa, co, ts, joinLines (linesOf c.message), true⟩ := by
    intro tr pa co ts
    rw [foldl_deserLine_message _ _ rfl]
    simp
  rcases hp : c.parent with _ | p
  · have hser : Commit.serialize c =
        (treeT ++ 32 :: c.tree) ++ 10 ::
          ((committerKW ++ 32 :: (c.committer ++ 32 :: natToDecBytes c.timestamp)) ++
            10 :: (10 :: c.message)) := by
      unfold Commit.serialize
      rw [hp]
      simp
    unfold Commit.deserialize
    rw [hser, linesOf_header _ _ hline1_10 hline1_13,
      linesOf_header _ _ hline3_10 hline3_13, hml,
      List.foldl_cons, List.foldl_cons, List.foldl_cons,
      htreestep, hcommstep, hblankstep, hmsgfold]
    dsimp only
    rw [trimEnd_joinLines_linesOf hmsg13]
  · have hp10 := (hpar p hp).1
    have hp13 := (hpar p hp).2
    have hline2_10 : (10 : Nat) ∉ parentKW ++ 32 :: p := by
      intro hmem
      rcases List.mem_append.mp hmem with h | h
      · revert h; decide
      · rcases List.mem_cons.mp h with h | h
        · cases h
        · exact hp10 h
    have hline2_13 : (13 : Nat) ∉ parentKW ++ 32 :: p := by
      intro hmem
      rcases List.mem_append.mp hmem with h | h
      · revert h; decide
      · rcases List.mem_cons.mp h with h | h
        · cases h
        · exact hp13 h
    have hparstep : deserLine ⟨c.tree, none, [], 0, [], false⟩ (parentKW ++ 32 :: p) =
        ⟨c.tree, some p, [], 0, [], false⟩ := by
      unfold deserLine splitN2Space
      rw [splitAtFirst_append _ (by decide : (32 : Nat) ∉ parentKW)]
      dsimp only
      rw [if_neg (by simp), if_neg (by simp), if_neg (by decide), if_pos rfl]
    have hser : Commit.serialize c =
        (treeT ++ 32 :: c.tree) ++ 10 ::
          ((parentKW ++ 32 :: p) ++ 10 ::
            ((committerKW ++ 32 :: (c.committer ++ 32 :: natToDecBytes c.timestamp)) ++
              10 :: (10 :: c.message))) := by
      unfold Commit.serialize
      rw [hp]
      simp
    unfold Commit.deserialize
    rw [hser, linesOf_header _ _ hline1_10 hline1_13,
      linesOf_header _ _ hline2_10 hline2_13,
      linesOf_header _ _ hline3_10 hline3_13, hml,
      List.foldl_cons, List.foldl_cons, List.foldl_cons, List.foldl_cons,
      htreestep, hparstep, hcommstep, hblankstep, hmsgfold]
    dsimp only
    rw [trimEnd_joinLines_linesOf hmsg13]

/-- Witness for claim C7: a commit with the two-token committer aa bb,
a parent, a newline inside the message and trailing spaces after it. -/
theorem c7_witness :
    (([97, 97] : Bytes) ≠ [] ∧ 2 ≤ ([[97, 97], [98, 98]] : List Bytes).length) ∧
    Commit.deserialize (Commit.serialize
        ⟨[84], some [80], [97, 97, 32, 98, 98], [109, 10, 110, 32, 32], 123⟩) =
      ⟨[84], some [80], [97, 97, 32, 98, 98],
        trimEndBytes [109, 10, 110, 32, 32], 123⟩ :=
  ⟨⟨by decide, by decide⟩,
    c7_commit_roundtrip ⟨[84], some [80], [97, 97, 32, 98, 98], [109, 10, 110, 32, 32], 123⟩
      [[97, 97], [98, 98]] (by decide) (by decide) (by decide) (by decide)
      (by decide) (by decide)
      (fun p hp => by
        simp only [Option.some_inj] at hp
        subst hp
        exact ⟨by decide, by decide⟩)
      (by decide) (by norm_num)⟩

/-
Order lemmas for the byte-wise comparison and the sorted map of the
tree builder (claim C6).
-/

theorem compareBytes_self (a : Bytes) : compareBytes a a = .eq := by
  induction a with
  | nil => rfl
  | cons x t ih => simp [compareBytes, ih]

theorem compareBytes_eq_iff {a b : Bytes} : compareBytes a b = .eq ↔ a = b := by
  constructor
  · intro h
    induction a generalizing b with
    | nil => cases b with
      | nil => rfl
      | cons y s => simp [compareBytes] at h
    | cons x t ih =>
      cases b with
      | nil => simp [compareBytes] at h
      | cons y s =>
        unfold compareBytes at h
        by_cases hxy : x < y
        · rw [if_pos hxy] at h; cases h
        · rw [if_neg hxy] at h
          by_cases hyx : y < x
          · rw [if_pos hyx] at h; cases h
          · rw [if_neg hyx] at h
            have : x = y := by omega
            rw [this, ih h]
  · rintro rfl
    exact compareBytes_self a

theorem compareBytes_gt_iff {a b : Bytes} :
    compareBytes a b = .gt ↔ compareBytes b a = .lt := by
  induction a generalizing b with
  | nil => cases b <;> simp [compareBytes]
  | cons x t ih =>
    cases b with
    | nil => simp [compareBytes]
    | cons y s =>
      unfold compareBytes
      by_cases hxy : x < y
      · rw [if_pos hxy, if_neg (by omega : ¬ y < x), if_pos hxy]
        simp
      · by_cases hyx : y < x
        · rw [if_neg hxy, if_pos hyx, if_pos hyx]
          simp
        · rw [if_neg hxy, if_neg hyx, if_neg hyx, if_neg hxy]
          exact ih

theorem compareBytes_lt_trans {a b c : Bytes} (h1 : compareBytes a b = .lt)
    (h2 : compareBytes b c = .lt) : compareBytes a c = .lt := by
  induction a generalizing b c with
  | nil =>
    cases c with
    | nil =>
      cases b with
      | nil => cases h1
      | cons y s => cases h2
    | cons z r => rfl
  | cons x t ih =>
    cases b with
    | nil => cases h1
    | cons y s =>
      cases c with
      | nil => cases h2
      | cons z r =>
        unfold compareBytes at h1 h2 ⊢
        by_cases hxy : x < y
        · rw [if_pos hxy] at h1
          by_cases hyz : y < z
          · rw [if_pos (by omega : x < z)]
          · rw [if_neg hyz] at h2
            by_cases hzy : z < y
            · rw [if_pos hzy] at h2; cases h2
            · have : y = z := by omega
              rw [if_pos (by omega : x < z)]
        · rw [if_neg hxy] at h1
          by_cases hyx : y < x
          · rw [if_pos hyx] at h1; cases h1
          · have hxy2 : x = y := by omega
            subst hxy2
            rw [if_neg hxy] at h1
            by_cases hxz : x < z
            · rw [if_pos hxz]
            · rw [if_neg hxz] at h2 ⊢
              by_cases hzx : z < x
              · rw [if_pos hzx] at h2; cases h2
              · rw [if_neg hzx] at h2 ⊢
                exact ih h1 h2

theorem ne_of_compareBytes_lt {a b : Bytes} (h : compareBytes a b = .lt) : a ≠ b := by
  rintro rfl
  rw [compareBytes_self] at h
  cases h

theorem mem_keys_insertSorted {x k : Bytes} {v : TreeEntry} {m : TMap}
    (h : x ∈ (insertSorted k v m).map Prod.fst) : x = k ∨ x ∈ m.map Prod.fst := by
  induction m with
  | nil => simp [insertSorted] at h; exact Or.inl h
  | cons p t ih =>
    obtain ⟨k1, v1⟩ := p
    unfold insertSorted at h
    rcases hc : compareBytes k k1 with _ | _ | _ <;> rw [hc] at h
    · rcases List.mem_map.mp h with ⟨q, hq, rfl⟩
      rcases List.mem_cons.mp hq with rfl | hq2
      · exact Or.inl rfl
      · exact Or.inr (List.mem_map_of_mem _ hq2)
    · rcases List.mem_map.mp h with ⟨q, hq, rfl⟩
      rcases List.mem_cons.mp hq with rfl | hq2
      · exact Or.inl rfl
      · exact Or.inr (List.mem_map_of_mem _ (List.mem_cons_of_mem _ hq2))
    · rcases List.mem_map.mp h with ⟨q, hq, rfl⟩
      rcases List.mem_cons.mp hq with rfl | hq2
      · exact Or.inr (by simp)
      · rcases ih (List.mem_map_of_mem _ hq2) with h1 | h2
        · exact Or.inl h1
        · exact Or.inr (by simp [h2])

theorem insertSorted_sorted {k : Bytes} {v : TreeEntry} {m : TMap}
    (hs : (m.map Prod.fst).Pairwise (fun a b => compareBytes a b = .lt)) :
    ((insertSorted k v m).map Prod.fst).Pairwise (fun a b => compareBytes a b = .lt) := by
  induction m with
  | nil => simp [insertSorted]
  | cons p t ih =>
    obtain ⟨k1, v1⟩ := p
    rw [List.map_cons, List.pairwise_cons] at hs
    unfold insertSorted
    rcases hc : compareBytes k k1 with _ | _ | _
    · rw [List.map_cons, List.map_cons, List.pairwise_cons]
      refine ⟨?_, ?_⟩
      · intro x hx
        rcases List.mem_cons.mp hx with rfl | hx2
        · exact hc
        · exact compareBytes_lt_trans hc (hs.1 x hx2)
      · rw [List.pairwise_cons]
        exact hs
    · have : k = k1 := compareBytes_eq_iff.mp hc
      subst this
      rw [List.map_cons, List.pairwise_cons]
      exact hs
    · rw [List.map_cons, List.pairwise_cons]
      refine ⟨?_, ih hs.2⟩
      intro x hx
      rcases mem_keys_insertSorted hx with rfl | hx2
      · exact compareBytes_gt_iff.mp hc
      · exact hs.1 x hx2

theorem mem_insertSorted {k : Bytes} {v : TreeEntry} {m : TMap}
    (hs : (m.map Prod.fst).Pairwise (fun a b => compareBytes a b = .lt))
    (p : Bytes × TreeEntry) :
    p ∈ insertSorted k v m ↔ p = (k, v) ∨ (p ∈ m ∧ p.1 ≠ k) := by
  induction m with
  | nil => simp [insertSorted]
  | cons q t ih =>
    obtain ⟨k1, v1⟩ := q
    rw [List.map_cons, List.pairwise_cons] at hs
    unfold insertSorted
    rcases hc : compareBytes k k1 with _ | _ | _
    · constructor
      · intro hp
        rcases List.mem_cons.mp hp with rfl | hp2
        · exact Or.inl rfl
        · refine Or.inr ⟨hp2, ?_⟩
          rcases List.mem_cons.mp hp2 with rfl | hp3
          · exact fun he => ne_of_compareBytes_lt hc he.symm
          · have hklt : compareBytes k p.1 = .lt :=
              compareBytes_lt_trans hc (hs.1 p.1 (List.mem_map_of_mem _ hp3))
            exact fun he => ne_of_compareBytes_lt hklt he.symm
      · rintro (rfl | ⟨hp2, hne⟩)
        · exact List.mem_cons_self _ _
        · exact List.mem_cons_of_mem _ hp2
    · have he : k = k1 := compareBytes_eq_iff.mp hc
      subst he
      constructor
      · intro hp
        rcases List.mem_cons.mp hp with rfl | hp2
        · exact Or.inl rfl
        · refine Or.inr ⟨List.mem_cons_of_mem _ hp2, ?_⟩
          have : compareBytes k p.1 = .lt := hs.1 p.1 (List.mem_map_of_mem _ hp2)
          exact fun hpe => ne_of_compareBytes_lt this hpe.symm
      · rintro (rfl | ⟨hp2, hne⟩)
        · exact List.mem_cons_self _ _
        · rcases List.mem_cons.mp hp2 with rfl | hp3
          · exact absurd rfl hne
          · exact List.mem_cons_of_mem _ hp3
    · constructor
      · intro hp
        rcases List.mem_cons.mp hp with rfl | hp2
        · refine Or.inr ⟨List.mem_cons_self _ _, ?_⟩
          intro he
          rw [← he] at hc
          rw [compareBytes_self] at hc
          cases hc
        · rcases (ih hs.2).mp hp2 with h1 | ⟨h2, h3⟩
          · exact Or.inl h1
          · exact Or.inr ⟨List.mem_cons_of_mem _ h2, h3⟩
      · rintro (rfl | ⟨hp2, hne⟩)
        · exact List.mem_cons_of_mem _ ((ih hs.2).mpr (Or.inl rfl))
        · rcases List.mem_cons.mp hp2 with rfl | hp3
          · exact List.mem_cons_self _ _
          · exact List.mem_cons_of_mem _ ((ih hs.2).mpr (Or.inr ⟨hp3, hne⟩))

theorem insertSorted_forall {P : Bytes × TreeEntry → Prop} {k : Bytes} {v : TreeEntry}
    {m : TMap} (hkv : P (k, v)) (hm : ∀ p ∈ m, P p) :
    ∀ p ∈ insertSorted k v m, P p := by
  induction m with
  | nil =>
    intro p hp
    simp [insertSorted] at hp
    exact hp ▸ hkv
  | cons q t ih =>
    obtain ⟨k1, v1⟩ := q
    intro p hp
    unfold insertSorted at hp
    rcases hc : compareBytes k k1 with _ | _ | _ <;> rw [hc] at hp
    · rcases List.mem_cons.mp hp with rfl | hp2
      · exact hkv
      · exact hm p hp2
    · rcases List.mem_cons.mp hp with rfl | hp2
      · exact hkv
      · exact hm p (List.mem_cons_of_mem _ hp2)
    · rcases List.mem_cons.mp hp with rfl | hp2
      · exact hm _ (List.mem_cons_self _ _)
      · exact ih (fun q hq => hm q (List.mem_cons_of_mem _ hq)) p hp2

theorem sorted_map_eq_of_mem_iff : ∀ {m1 m2 : TMap},
    (m1.map Prod.fst).Pairwise (fun a b => compareBytes a b = .lt) →
    (m2.map Prod.fst).Pairwise (fun a b => compareBytes a b = .lt) →
    (∀ p, p ∈ m1 ↔ p ∈ m2) → m1 = m2 := by
  intro m1
  induction m1 with
  | nil =>
    intro m2 _ _ hiff
    cases m2 with
    | nil => rfl
    | cons q t2 => cases (hiff q).mpr (List.mem_cons_self _ _)
  | cons p t1 ih =>
    intro m2 hs1 hs2 hiff
    cases m2 with
    | nil => cases (hiff p).mp (List.mem_cons_self _ _)
    | cons q t2 =>
      rw [List.map_cons, List.pairwise_cons] at hs1 hs2
      have hpq : p = q := by
        rcases List.mem_cons.mp ((hiff p).mp (List.mem_cons_self _ _)) with h | hpt2
        · exact h
        · rcases List.mem_cons.mp ((hiff q).mpr (List.mem_cons_self _ _)) with h | hqt1
          · exact h.symm
          · have h1 : compareBytes p.1 q.1 = .lt :=
              hs1.1 q.1 (List.mem_map_of_mem _ hqt1)
            have h2 : compareBytes q.1 p.1 = .lt :=
              hs2.1 p.1 (List.mem_map_of_mem _ hpt2)
            have := compareBytes_lt_trans h1 h2
            rw [compareBytes_self] at this
            cases this
      subst hpq
      have htails : ∀ r, r ∈ t1 ↔ r ∈ t2 := by
        intro r
        constructor
        · intro hr
          rcases List.mem_cons.mp ((hiff r).mp (List.mem_cons_of_mem _ hr)) with h | h2
          · subst h
            have := hs1.1 r.1 (List.mem_map_of_mem _ hr)
            rw [compareBytes_self] at this
            cases this
          · exact h2
        · intro hr
          rcases List.mem_cons.mp ((hiff r).mpr (List.mem_cons_of_mem _ hr)) with h | h2
          · subst h
            have := hs2.1 r.1 (List.mem_map_of_mem _ hr)
            rw [compareBytes_self] at this
            cases this
          · exact h2
      rw [ih hs1.2 hs2.2 htails]

theorem fold_insert_sorted {β : Type} (keyOf : β → Bytes) (valOf : β → TreeEntry)
    (l : List β) : ∀ m0 : TMap,
    (m0.map Prod.fst).Pairwise (fun a b => compareBytes a b = .lt) →
    (((l.foldl (fun m e => insertSorted (keyOf e) (valOf e) m) m0).map
        Prod.fst).Pairwise (fun a b => compareBytes a b = .lt)) := by
  induction l with
  | nil => intro m0 h; exact h
  | cons a t ih =>
    intro m0 h
    rw [List.foldl_cons]
    exact ih _ (insertSorted_sorted h)

theorem fold_insert_mem {β : Type} (keyOf : β → Bytes) (valOf : β → TreeEntry)
    (l : List β) (hnd : (l.map keyOf).Nodup) : ∀ (m0 : TMap),
    (m0.map Prod.fst).Pairwise (fun a b => compareBytes a b = .lt) →
    ∀ p, p ∈ l.foldl (fun m e => insertSorted (keyOf e) (valOf e) m) m0 ↔
      (p ∈ l.map (fun e => (keyOf e, valOf e)) ∨ (p ∈ m0 ∧ p.1 ∉ l.map keyOf)) := by
  induction l with
  | nil => intro m0 _ p; simp
  | cons a t ih =>
    intro m0 hs p
    rw [List.map_cons, List.nodup_cons] at hnd
    rw [List.foldl_cons]
    rw [ih hnd.2 _ (insertSorted_sorted hs) p]
    rw [mem_insertSorted hs]
    constructor
    · rintro (h1 | ⟨(rfl | ⟨hm0, hne⟩), hnk⟩)
      · exact Or.inl (by simp [h1])
      · exact Or.inl (by simp)
      · refine Or.inr ⟨hm0, ?_⟩
        rw [List.map_cons]
        intro hmem
        rcases List.mem_cons.mp hmem with h | h
        · exact hne h
        · exact hnk h
    · rintro (h1 | ⟨hm0, hnk⟩)
      · rw [List.map_cons] at h1
        rcases List.mem_cons.mp h1 with rfl | h2
        · exact Or.inr ⟨Or.inl rfl, hnd.1⟩
        · exact Or.inl h2
      · rw [List.map_cons] at hnk
        refine Or.inr ⟨Or.inr ⟨hm0, fun he => hnk (he ▸ List.mem_cons_self _ _)⟩, ?_⟩
        exact fun hm => hnk (List.mem_cons_of_mem _ hm)

theorem fold_insert_perm {β : Type} (keyOf : β → Bytes) (valOf : β → TreeEntry)
    {l1 l2 : List β} (hp : l1.Perm l2) (hnd : (l1.map keyOf).Nodup) :
    l1.foldl (fun m e => insertSorted (keyOf e) (valOf e) m) [] =
      l2.foldl (fun m e => insertSorted (keyOf e) (valOf e) m) [] := by
  have hnd2 : (l2.map keyOf).Nodup := ((hp.map keyOf).nodup_iff).mp hnd
  apply sorted_map_eq_of_mem_iff (fold_insert_sorted _ _ _ _ (by simp))
    (fold_insert_sorted _ _ _ _ (by simp))
  intro p
  rw [fold_insert_mem keyOf valOf l1 hnd _ (by simp) p,
    fold_insert_mem keyOf valOf l2 hnd2 _ (by simp) p]
  simp only [List.not_mem_nil, false_and, and_false, or_false]
  exact (hp.map _).mem_iff

theorem serialize_tree_entries_error : ∀ {l : List TreeEntry} {e : IoErr},
    serialize_tree_entries l = .error e → e = .invalidData := by
  intro l
  induction l with
  | nil => intro e h; cases h
  | cons a t ih =>
    intro e h
    unfold serialize_tree_entries at h
    rcases hd : hexDecode a.hash with _ | hb <;> rw [hd] at h <;> dsimp only at h
    · cases h; rfl
    · by_cases hl : hb.length = 32
      · rw [if_pos hl] at h
        rcases hrec : serialize_tree_entries t with er | rest <;> rw [hrec] at h
        · cases h
          exact ih hrec
        · cases h
      · rw [if_neg hl] at h
        cases h
        rfl

theorem hashOfNode_error {hash : Bytes → Bytes} {r : Except IoErr TMap} {e : IoErr}
    (hr : ∀ e1, r = .error e1 → e1 = .invalidData) (h : hashOfNode hash r = .error e) :
    e = .invalidData := by
  unfold hashOfNode at h
  rcases r with er | m <;> dsimp only at h
  · cases h
    exact hr _ rfl
  · rcases hs : serialize_tree_entries (m.map Prod.snd) with er | payload <;> rw [hs] at h
    · cases h
      exact serialize_tree_entries_error hs
    · cases h

theorem foldlM_insert_error (f : Bytes → Except IoErr Bytes)
    (hinv : ∀ d e, f d = .error e → e = .invalidData) :
    ∀ (names : List Bytes) (m0 : TMap) (e : IoErr),
    names.foldlM (fun m d =>
        match f d with
        | .error er => (.error er : Except IoErr TMap)
        | .ok h => .ok (insertSorted d (dirTreeEntry d h) m)) m0 =
      .error e → e = .invalidData := by
  intro names
  induction names with
  | nil => intro m0 e h; cases h
  | cons d t ih =>
    intro m0 e h
    rw [List.foldlM_cons] at h
    rcases hf : f d with er | hv <;> rw [hf] at h
    · simp only [bind, Except.bind] at h
      cases h
      exact hinv d _ hf
    · exact ih _ _ h

theorem foldlM_insert_all_ok (f : Bytes → Except IoErr Bytes) (g : Bytes → Bytes) :
    ∀ (names : List Bytes), (∀ d ∈ names, f d = .ok (g d)) → ∀ m0 : TMap,
    names.foldlM (fun m d =>
        match f d with
        | .error er => (.error er : Except IoErr TMap)
        | .ok h => .ok (insertSorted d (dirTreeEntry d h) m)) m0 =
      .ok (names.foldl (fun m d => insertSorted d (dirTreeEntry d (g d)) m) m0) := by
  intro names
  induction names with
  | nil => intro _ m0; rfl
  | cons d t ih =>
    intro hok m0
    rw [List.foldlM_cons, hok d (List.mem_cons_self _ _)]
    show t.foldlM _ (insertSorted d (dirTreeEntry d (g d)) m0) = _
    rw [ih (fun x hx => hok x (List.mem_cons_of_mem _ hx)), List.foldl_cons]

theorem foldlM_insert_has_error (f : Bytes → Except IoErr Bytes)
    (hinv : ∀ d e, f d = .error e → e = .invalidData) :
    ∀ (names : List Bytes), (∃ d ∈ names, ∃ e, f d = .error e) → ∀ m0 : TMap,
    names.foldlM (fun m d =>
        match f d with
        | .error er => (.error er : Except IoErr TMap)
        | .ok h => .ok (insertSorted d (dirTreeEntry d h) m)) m0 =
      .error .invalidData := by
  intro names
  induction names with
  | nil => rintro ⟨d, hd, _⟩ m0; cases hd
  | cons d t ih =>
    rintro ⟨d1, hd1, e1, he1⟩ m0
    rw [List.foldlM_cons]
    rcases hf : f d with er | hv
    · have he : er = .invalidData := hinv d er hf
      subst he
      rfl
    · rcases List.mem_cons.mp hd1 with rfl | hd2
      · rw [hf] at he1; cases he1
      · exact ih ⟨d1, hd2, e1, he1⟩ _

theorem splitOnByte_sep_cons (sep : Nat) (r : Bytes) :
    splitOnByte sep (sep :: r) = [] :: splitOnByte sep r := by
  rw [splitOnByte.eq_def]
  dsimp only
  rw [if_pos rfl]

theorem splitOnByte_injective {sep : Nat} : ∀ {l1 l2 : Bytes},
    splitOnByte sep l1 = splitOnByte sep l2 → l1 = l2 := by
  intro l1
  induction l1 with
  | nil =>
    intro l2 h
    cases l2 with
    | nil => rfl
    | cons b r =>
      by_cases hb : b = sep
      · rw [hb, splitOnByte_sep_cons] at h
        simp [splitOnByte] at h
        exact absurd h (splitOnByte_ne_nil _ _)
      · rw [splitOnByte_cons_ne _ hb] at h
        simp [splitOnByte] at h
  | cons a r1 ih =>
    intro l2 h
    cases l2 with
    | nil =>
      by_cases ha : a = sep
      · rw [ha, splitOnByte_sep_cons] at h
        simp [splitOnByte] at h
        exact absurd h (splitOnByte_ne_nil _ _)
      · rw [splitOnByte_cons_ne _ ha] at h
        simp [splitOnByte] at h
    | cons b r2 =>
      by_cases ha : a = sep <;> by_cases hb : b = sep
      · rw [ha, hb]
        rw [ha, hb, splitOnByte_sep_cons, splitOnByte_sep_cons] at h
        simp only [List.cons.injEq, true_and] at h
        rw [ih h]
      · rw [ha, splitOnByte_sep_cons, splitOnByte_cons_ne _ hb] at h
        simp at h
      · rw [hb, splitOnByte_sep_cons, splitOnByte_cons_ne _ ha] at h
        simp at h
      · rw [splitOnByte_cons_ne _ ha, splitOnByte_cons_ne _ hb] at h
        rcases hs1 : splitOnByte sep r1 with _ | ⟨p1, t1⟩
        · exact absurd hs1 (splitOnByte_ne_nil _ _)
        · rcases hs2 : splitOnByte sep r2 with _ | ⟨p2, t2⟩
          · exact absurd hs2 (splitOnByte_ne_nil _ _)
          · rw [hs1, hs2] at h
            simp only [List.headI, List.tail, List.cons.injEq] at h
            obtain ⟨⟨hab, hp⟩, ht⟩ := h
            rw [hab, @ih r2 (by rw [hs1, hs2, hp, ht])]

theorem childEntries_map_fst (d : Bytes) (es : List PEntry) :
    (childEntries d es).map Prod.fst = (es.map Prod.fst).filterMap (fun path =>
      match path with
      | c :: r :: rs => if c = d then some (r :: rs) else none
      | _ => none) := by
  unfold childEntries
  rw [List.map_filterMap, List.filterMap_map]
  apply List.filterMap_congr
  intro pe _
  rcases pe with ⟨path, entry⟩
  rcases path with _ | ⟨c, rest⟩
  · rfl
  · rcases rest with _ | ⟨r, rs⟩
    · rfl
    · by_cases hc : c = d <;> simp [hc, Function.comp]

theorem childEntries_paths_nodup {d : Bytes} {es : List PEntry}
    (h : (es.map Prod.fst).Nodup) : ((childEntries d es).map Prod.fst).Nodup := by
  rw [childEntries_map_fst]
  refine List.Nodup.filterMap ?_ h
  intro a a1 b hb hb1
  rcases a with _ | ⟨c, rest⟩
  · simp at hb
  · rcases rest with _ | ⟨r, rs⟩
    · simp at hb
    · rcases a1 with _ | ⟨c1, rest1⟩
      · simp at hb1
      · rcases rest1 with _ | ⟨r1, rs1⟩
        · simp at hb1
        · dsimp only at hb hb1
          by_cases hc : c = d
          · by_cases hc1 : c1 = d
            · rw [if_pos hc] at hb
              rw [if_pos hc1] at hb1
              rw [Option.mem_def, Option.some_inj] at hb hb1
              rw [hc, hc1, hb.trans hb1.symm]
            · rw [if_neg hc1] at hb1
              simp at hb1
          · rw [if_neg hc] at hb
            simp at hb

theorem blobsOf_names_nodup {es : List PEntry} (h : (es.map Prod.fst).Nodup) :
    ((blobsOf es).map blobName).Nodup := by
  have hfn : ((blobsOf es).map Prod.fst).Nodup := by
    have hsub : List.Sublist ((blobsOf es).map Prod.fst) (es.map Prod.fst) :=
      (List.filter_sublist _).map _
    exact hsub.nodup h
  have hlen : ∀ p ∈ (blobsOf es).map Prod.fst, p.length = 1 := by
    intro p hp
    rcases List.mem_map.mp hp with ⟨pe, hpe, rfl⟩
    have := (List.mem_filter.mp hpe).2
    simpa using this
  have : (blobsOf es).map blobName = ((blobsOf es).map Prod.fst).map
      (fun path => path.getLastD []) := by
    rw [List.map_map]
    rfl
  rw [this]
  refine List.Nodup.map_on ?_ hfn
  intro x hx y hy hxy
  rcases List.length_eq_one.mp (hlen x hx) with ⟨a, rfl⟩
  rcases List.length_eq_one.mp (hlen y hy) with ⟨b, rfl⟩
  simp at hxy
  rw [hxy]

theorem blobFold_ok : ∀ {l : List PEntry},
    (∀ pe ∈ l, normalComp (blobName pe) = true) → ∀ m0 : TMap,
    blobFold l m0 =
      .ok (l.foldl (fun m pe => insertSorted (blobName pe) (blobTreeEntry pe) m) m0) := by
  intro l
  induction l with
  | nil => intro _ m0; rfl
  | cons pe t ih =>
    intro h m0
    unfold blobFold
    rw [if_pos (h pe (List.mem_cons_self _ _))]
    rw [ih (fun q hq => h q (List.mem_cons_of_mem _ hq)), List.foldl_cons]

theorem blobFold_sorted : ∀ {l : List PEntry} {m0 m : TMap},
    (m0.map Prod.fst).Pairwise (fun a b => compareBytes a b = .lt) →
    blobFold l m0 = .ok m →
    (m.map Prod.fst).Pairwise (fun a b => compareBytes a b = .lt) := by
  intro l
  induction l with
  | nil =>
    intro m0 m hs h
    unfold blobFold at h
    cases h
    exact hs
  | cons pe t ih =>
    intro m0 m hs h
    unfold blobFold at h
    by_cases hn : normalComp (blobName pe) = true
    · rw [if_pos hn] at h
      exact ih (insertSorted_sorted hs) h
    · rw [if_neg hn] at h
      cases h

theorem blobFold_forall {P : Bytes × TreeEntry → Prop}
    (hP : ∀ pe : PEntry, P (blobName pe, blobTreeEntry pe)) : ∀ {l : List PEntry}
    {m0 m : TMap}, (∀ p ∈ m0, P p) → blobFold l m0 = .ok m → ∀ p ∈ m, P p := by
  intro l
  induction l with
  | nil =>
    intro m0 m h0 h
    unfold blobFold at h
    cases h
    exact h0
  | cons pe t ih =>
    intro m0 m h0 h
    unfold blobFold at h
    by_cases hn : normalComp (blobName pe) = true
    · rw [if_pos hn] at h
      exact ih (insertSorted_forall (hP pe) h0) h
    · rw [if_neg hn] at h
      cases h

/-- In an entry list whose components are all Normal, every blob child
has a Normal file name, so the blob loop never panics. -/
theorem blobsOf_norm {es : List PEntry}
    (h : ∀ pe ∈ es, pe.1.all normalComp = true) :
    ∀ pe ∈ blobsOf es, normalComp (blobName pe) = true := by
  intro pe hpe
  have hm := List.mem_filter.mp hpe
  have hlen : pe.1.length = 1 := by simpa using hm.2
  rcases List.length_eq_one.mp hlen with ⟨c, hc⟩
  have := h pe hm.1
  rw [hc] at this
  simp only [List.all_cons, List.all_nil, Bool.and_true] at this
  show normalComp (pe.1.getLastD []) = true
  rw [hc]
  exact this

/-- The all-Normal-components invariant passes to the entries of every
subdirectory: their remaining paths are suffixes of the parents'. -/
theorem childEntries_norm {d : Bytes} {es : List PEntry}
    (h : ∀ pe ∈ es, pe.1.all normalComp = true) :
    ∀ q ∈ childEntries d es, q.1.all normalComp = true := by
  intro q hq
  unfold childEntries at hq
  rcases List.mem_filterMap.mp hq with ⟨pe, hpe, hf⟩
  rcases pe with ⟨path, e⟩
  rcases path with _ | ⟨c, rest⟩
  · cases hf
  · rcases rest with _ | ⟨r, rs⟩
    · cases hf
    · dsimp only at hf
      by_cases hc : c = d
      · rw [if_pos hc] at hf
        have hall := h (c :: r :: rs, e) hpe
        rw [List.all_cons, Bool.and_eq_true] at hall
        cases hf
        exact hall.2
      · rw [if_neg hc] at hf
        cases hf

theorem nodeMap_error (hash : Bytes → Bytes) :
    ∀ (fuel : Nat) (es : List PEntry), (∀ pe ∈ es, pe.1.all normalComp = true) →
      ∀ e : IoErr, nodeMap hash fuel es = .error e → e = .invalidData := by
  intro fuel
  induction fuel with
  | zero => intro es _ e h; cases h; rfl
  | succ f ih =>
    intro es hnorm e h
    unfold nodeMap at h
    rw [blobFold_ok (blobsOf_norm hnorm) []] at h
    dsimp only at h
    exact foldlM_insert_error _
      (fun d e1 he1 => hashOfNode_error
        (fun e2 he2 => ih _ (childEntries_norm hnorm) e2 he2) he1) _ _ _ h

/-- fold_insert_perm generalized to an arbitrary sorted starting map. -/
theorem fold_insert_perm_from {β : Type} (keyOf : β → Bytes) (valOf : β → TreeEntry)
    {l1 l2 : List β} (hp : l1.Perm l2) (hnd : (l1.map keyOf).Nodup) (m0 : TMap)
    (hs : (m0.map Prod.fst).Pairwise (fun a b => compareBytes a b = .lt)) :
    l1.foldl (fun m e => insertSorted (keyOf e) (valOf e) m) m0 =
      l2.foldl (fun m e => insertSorted (keyOf e) (valOf e) m) m0 := by
  have hnd2 : (l2.map keyOf).Nodup := ((hp.map keyOf).nodup_iff).mp hnd
  apply sorted_map_eq_of_mem_iff (fold_insert_sorted _ _ _ _ hs)
    (fold_insert_sorted _ _ _ _ hs)
  intro p
  rw [fold_insert_mem keyOf valOf l1 hnd _ hs p,
    fold_insert_mem keyOf valOf l2 hnd2 _ hs p]
  rw [(hp.map (fun e => (keyOf e, valOf e))).mem_iff, (hp.map keyOf).mem_iff]

/-- Every pair of an insertion fold satisfies an invariant holding of the
inserted pairs and of the starting map. -/
theorem fold_insert_forall {β : Type} (keyOf : β → Bytes) (valOf : β → TreeEntry)
    {P : Bytes × TreeEntry → Prop} (hPe : ∀ e : β, P (keyOf e, valOf e)) :
    ∀ (l : List β) (m0 : TMap), (∀ p ∈ m0, P p) →
    ∀ p ∈ l.foldl (fun m e => insertSorted (keyOf e) (valOf e) m) m0, P p := by
  intro l
  induction l with
  | nil => intro m0 h0; exact h0
  | cons a t ih =>
    intro m0 h0
    rw [List.foldl_cons]
    exact ih _ (insertSorted_forall (hPe a) h0)

/-- A successful subdirectory foldlM keeps the key list strictly sorted. -/
theorem foldlM_insert_sorted (f : Bytes → Except IoErr Bytes) :
    ∀ (names : List Bytes) (m0 : TMap),
    ((m0.map Prod.fst).Pairwise (fun a b => compareBytes a b = .lt)) →
    ∀ m : TMap, names.foldlM (fun m d =>
        match f d with
        | .error er => (.error er : Except IoErr TMap)
        | .ok h => .ok (insertSorted d (dirTreeEntry d h) m)) m0 = .ok m →
    (m.map Prod.fst).Pairwise (fun a b => compareBytes a b = .lt) := by
  intro names
  induction names with
  | nil =>
    intro m0 hs m h
    rw [List.foldlM_nil] at h
    simp only [pure, Except.pure] at h
    cases h
    exact hs
  | cons d t ih =>
    intro m0 hs m h
    rw [List.foldlM_cons] at h
    rcases hf : f d with er | hv <;> rw [hf] at h <;> dsimp only at h <;>
      simp only [bind, Except.bind] at h
    · cases h
    · exact ih _ (insertSorted_sorted hs) m h

/-- A successful subdirectory foldlM keeps any invariant that holds of the
inserted directory pairs and of the starting map. -/
theorem foldlM_insert_forall (f : Bytes → Except IoErr Bytes)
    {P : Bytes × TreeEntry → Prop} (hP : ∀ d h, P (d, dirTreeEntry d h)) :
    ∀ (names : List Bytes) (m0 : TMap), (∀ p ∈ m0, P p) →
    ∀ m : TMap, names.foldlM (fun m d =>
        match f d with
        | .error er => (.error er : Except IoErr TMap)
        | .ok h => .ok (insertSorted d (dirTreeEntry d h) m)) m0 = .ok m →
    ∀ p ∈ m, P p := by
  intro names
  induction names with
  | nil =>
    intro m0 h0 m h
    rw [List.foldlM_nil] at h
    simp only [pure, Except.pure] at h
    cases h
    exact h0
  | cons d t ih =>
    intro m0 h0 m h
    rw [List.foldlM_cons] at h
    rcases hf : f d with er | hv <;> rw [hf] at h <;> dsimp only at h <;>
      simp only [bind, Except.bind] at h
    · cases h
    · exact ih _ (insertSorted_forall (hP d hv) h0) m h

/-- The subdirectory foldlM is invariant under a permutation of the (nodup)
name list, pointwise-equal recursion results and equal sorted starting maps. -/
theorem foldlM_insert_perm (f g : Bytes → Except IoErr Bytes) (hfg : ∀ d, f d = g d)
    (hinv : ∀ d e, f d = .error e → e = .invalidData)
    {n1 n2 : List Bytes} (hp : n1.Perm n2) (hnd : n1.Nodup)
    {m0 m0g : TMap} (hm : m0 = m0g)
    (hs : (m0.map Prod.fst).Pairwise (fun a b => compareBytes a b = .lt)) :
    n1.foldlM (fun m d =>
        match f d with
        | .error er => (.error er : Except IoErr TMap)
        | .ok h => .ok (insertSorted d (dirTreeEntry d h) m)) m0 =
      n2.foldlM (fun m d =>
        match g d with
        | .error er => (.error er : Except IoErr TMap)
        | .ok h => .ok (insertSorted d (dirTreeEntry d h) m)) m0g := by
  subst hm
  have hg : (fun (m : TMap) d =>
      match g d with
      | .error er => (.error er : Except IoErr TMap)
      | .ok h => .ok (insertSorted d (dirTreeEntry d h) m)) =
    (fun (m : TMap) d =>
      match f d with
      | .error er => (.error er : Except IoErr TMap)
      | .ok h => .ok (insertSorted d (dirTreeEntry d h) m)) := by
    funext m d
    rw [hfg d]
  rw [hg]
  by_cases hall : ∀ d ∈ n1, ∃ h1, f d = .ok h1
  · have hok1 : ∀ d ∈ n1, f d = .ok (((f d).toOption).getD []) := by
      intro d hd
      rcases hall d hd with ⟨h1, hh⟩
      rw [hh]
      rfl
    have hok2 : ∀ d ∈ n2, f d = .ok (((f d).toOption).getD []) := fun d hd =>
      hok1 d (hp.symm.subset hd)
    refine (foldlM_insert_all_ok f (fun d => ((f d).toOption).getD []) n1 hok1 m0).trans
      (Eq.trans ?_
        (foldlM_insert_all_ok f (fun d => ((f d).toOption).getD []) n2 hok2 m0).symm)
    exact congrArg Except.ok (fold_insert_perm_from (fun d => d)
      (fun d => dirTreeEntry d (((f d).toOption).getD [])) hp (by simpa using hnd) m0 hs)
  · push_neg at hall
    rcases hall with ⟨d, hd, hne⟩
    have herr : ∃ e, f d = .error e := by
      rcases hfd : f d with er | hv
      · exact ⟨er, rfl⟩
      · exact absurd hfd (hne hv)
    exact (foldlM_insert_has_error f hinv n1 ⟨d, hd, herr⟩ m0).trans
      (foldlM_insert_has_error f hinv n2 ⟨d, hp.subset hd, herr⟩ m0).symm

/-- Determinism of the node map of recursive_tree: a permutation of the
entry list (with distinct remaining paths) gives the same result, so the
arbitrary HashMap iteration order of the source cannot influence it. -/
theorem nodeMap_perm (hash : Bytes → Bytes) :
    ∀ (fuel : Nat) {es1 es2 : List PEntry}, es1.Perm es2 →
    (es1.map Prod.fst).Nodup → (∀ pe ∈ es1, pe.1.all normalComp = true) →
    nodeMap hash fuel es1 = nodeMap hash fuel es2 := by
  intro fuel
  induction fuel with
  | zero => intro es1 es2 _ _ _; rfl
  | succ f ih =>
    intro es1 es2 hp hnd hnorm
    have hnorm2 : ∀ pe ∈ es2, pe.1.all normalComp = true := fun pe hpe =>
      hnorm pe (hp.symm.subset hpe)
    have hchild : ∀ d, hashOfNode hash (nodeMap hash f (childEntries d es1)) =
        hashOfNode hash (nodeMap hash f (childEntries d es2)) := by
      intro d
      have hcp : (childEntries d es1).Perm (childEntries d es2) := hp.filterMap _
      rw [ih hcp (childEntries_paths_nodup hnd) (childEntries_norm hnorm)]
    have hinv : ∀ d e, hashOfNode hash (nodeMap hash f (childEntries d es1)) = .error e →
        e = .invalidData := by
      intro d e he
      exact hashOfNode_error
        (fun e1 h1 => nodeMap_error hash f _ (childEntries_norm hnorm) e1 h1) he
    have hbp : (blobsOf es1).Perm (blobsOf es2) := hp.filter _
    have hblob : (blobsOf es1).foldl
          (fun m pe => insertSorted (blobName pe) (blobTreeEntry pe) m) ([] : TMap) =
        (blobsOf es2).foldl
          (fun m pe => insertSorted (blobName pe) (blobTreeEntry pe) m) ([] : TMap) :=
      fold_insert_perm blobName blobTreeEntry hbp (blobsOf_names_nodup hnd)
    unfold nodeMap
    rw [blobFold_ok (blobsOf_norm hnorm) [], blobFold_ok (blobsOf_norm hnorm2) []]
    dsimp only
    exact foldlM_insert_perm
      (fun d => hashOfNode hash (nodeMap hash f (childEntries d es1)))
      (fun d => hashOfNode hash (nodeMap hash f (childEntries d es2)))
      hchild hinv ((hp.filterMap subdirHead).dedup)
      (List.nodup_dedup (es1.filterMap subdirHead)) hblob
      (fold_insert_sorted blobName blobTreeEntry (blobsOf es1) [] (by simp))

/-- Every node map recursive_tree successfully builds lists its entries with
names strictly increasing in byte-wise lexicographic order; these are exactly
the entries handed to serialize_tree_entries for that node. -/
theorem nodeMap_names_sorted {hash : Bytes → Bytes} {fuel : Nat} {es : List PEntry}
    {m : TMap} (h : nodeMap hash fuel es = .ok m) :
    ((m.map Prod.snd).map TreeEntry.name).Pairwise
      (fun a b => compareBytes a b = .lt) := by
  have hkeys : (m.map Prod.fst).Pairwise (fun a b => compareBytes a b = .lt) := by
    cases fuel with
    | zero => cases h
    | succ f =>
      unfold nodeMap at h
      rcases hb : blobFold (blobsOf es) [] with er | m0 <;> rw [hb] at h <;> dsimp only at h
      · cases h
      · exact foldlM_insert_sorted
          (fun d => hashOfNode hash (nodeMap hash f (childEntries d es)))
          (subdirNames es) m0 (blobFold_sorted (by simp) hb) m h
  have hnames : ∀ p ∈ m, (Prod.snd p).name = p.1 := by
    cases fuel with
    | zero => cases h
    | succ f =>
      unfold nodeMap at h
      rcases hb : blobFold (blobsOf es) [] with er | m0 <;> rw [hb] at h <;> dsimp only at h
      · cases h
      · refine foldlM_insert_forall (P := fun p => (Prod.snd p).name = p.1)
          (fun d => hashOfNode hash (nodeMap hash f (childEntries d es)))
          (fun d hh => rfl) (subdirNames es) m0 ?_ m h
        exact blobFold_forall (P := fun p => (Prod.snd p).name = p.1)
          (fun pe => rfl) (by simp) hb
  have hmap : (m.map Prod.snd).map TreeEntry.name = m.map Prod.fst := by
    rw [List.map_map]
    exact List.map_congr_left (fun p hp => hnames p hp)
  rw [hmap]
  exact hkeys

/-- create_tree is invariant under permutation of an index with distinct
paths: the byte paths determine the component paths injectively, the fuel is
a permutation-invariant sum and the node map is order-independent. -/
theorem create_tree_perm (hash : Bytes → Bytes) {entries1 entries2 : List IndexEntry}
    (hp : entries1.Perm entries2)
    (hnd : (entries1.map (fun e => splitPath e.path)).Nodup)
    (hnorm : ∀ e ∈ entries1, (splitPath e.path).all normalComp = true) :
    create_tree hash entries1 = create_tree hash entries2 := by
  have hfuel : pathFuel entries1 = pathFuel entries2 := by
    unfold pathFuel
    rw [(hp.map (fun e => (splitPath e.path).length)).sum_eq]
  have hpes : (entries1.map (fun e => ((splitPath e.path, e) : PEntry))).Perm
      (entries2.map (fun e => ((splitPath e.path, e) : PEntry))) :=
    hp.map (fun e => ((splitPath e.path, e) : PEntry))
  have hndp : ((entries1.map (fun e => ((splitPath e.path, e) : PEntry))).map
      Prod.fst).Nodup := by
    have h1 : (entries1.map (fun e => ((splitPath e.path, e) : PEntry))).map Prod.fst =
        entries1.map (fun e => splitPath e.path) := by
      rw [List.map_map]
      rfl
    rw [h1]
    exact hnd
  have hnp : ∀ pe ∈ entries1.map (fun e => ((splitPath e.path, e) : PEntry)),
      pe.1.all normalComp = true := by
    intro pe hpe
    rcases List.mem_map.mp hpe with ⟨e, he, rfl⟩
    exact hnorm e he
  unfold create_tree recursive_tree
  rw [hfuel]
  exact congrArg (hashOfNode hash)
    (nodeMap_perm hash (pathFuel entries2) hpes hndp hnp)

/-- Counterexample for C6 as stated: the index entries with paths a/b
and a//b are distinct strings, so reversing the two-entry list leaves
the set of (path, mode, blob_digest) triples unchanged, but
Path::components normalizes both paths to the components a, b: the two
blobs collide on the BTreeMap key b inside tree a, the later list entry
overwrites the earlier, and the root digest differs between the two
orders. -/
theorem c6_counterexample_normalized_collision :
    (([⟨33188, List.replicate 64 48, [97, 47, 98]⟩,
       ⟨33188, List.replicate 64 49, [97, 47, 47, 98]⟩] : List IndexEntry).Perm
      [⟨33188, List.replicate 64 49, [97, 47, 47, 98]⟩,
       ⟨33188, List.replicate 64 48, [97, 47, 98]⟩]) ∧
    create_tree (fun p => List.replicate 63 48 ++ [48 + p.sum % 10])
        [⟨33188, List.replicate 64 48, [97, 47, 98]⟩,
         ⟨33188, List.replicate 64 49, [97, 47, 47, 98]⟩] ≠
      create_tree (fun p => List.replicate 63 48 ++ [48 + p.sum % 10])
        [⟨33188, List.replicate 64 49, [97, 47, 47, 98]⟩,
         ⟨33188, List.replicate 64 48, [97, 47, 98]⟩] :=
  ⟨List.Perm.swap (⟨33188, List.replicate 64 49, [97, 47, 47, 98]⟩ : IndexEntry)
      (⟨33188, List.replicate 64 48, [97, 47, 98]⟩ : IndexEntry) [],
   by decide⟩

/-- C6 (amended): for a flat index with no base tree, every node map the
tree builder successfully produces hands serialize_tree_entries its
entries sorted by name under byte-wise lexicographic ordering; and the
root digest create_tree returns is independent of the order of the index
entries provided their paths normalize (in the sense of
Path::components) to distinct component sequences made of Normal
components only.  Without normalized-distinctness the digest does depend
on the order (paths a/b and a//b collide on the same tree key), and a
path whose last component is dot or dot-dot panics in
file_name().unwrap() instead of contributing an entry. -/
theorem c6_tree_sorted_and_order_independent (hash : Bytes → Bytes)
    (entries1 entries2 : List IndexEntry) (fuel : Nat) (es : List PEntry) (m : TMap)
    (hok : nodeMap hash fuel es = .ok m)
    (hperm : entries1.Perm entries2)
    (hnd : (entries1.map (fun e => splitPath e.path)).Nodup)
    (hnorm : ∀ e ∈ entries1, (splitPath e.path).all normalComp = true) :
    ((m.map Prod.snd).map TreeEntry.name).Pairwise
      (fun a b => compareBytes a b = .lt) ∧
    create_tree hash entries1 = create_tree hash entries2 :=
  ⟨nodeMap_names_sorted hok, create_tree_perm hash hperm hnd hnorm⟩

/-- Witness for C6: a concrete two-entry index (paths b and a/c) under a
constant hash function; the root node map is ok with names a, b in sorted
order, and both entry orders give equal create_tree results. -/
theorem c6_witness :
    ((([((([97] : Bytes)), (⟨16384, treeT, List.replicate 64 48, [97]⟩ : TreeEntry)),
        ((([98] : Bytes)), (⟨33188, blobT, List.replicate 64 48, [98]⟩ : TreeEntry))].map
          Prod.snd).map TreeEntry.name).Pairwise
      (fun a b => compareBytes a b = .lt) ∧
    create_tree (fun _ => List.replicate 64 48)
        [⟨33188, List.replicate 64 48, [98]⟩,
         ⟨33188, List.replicate 64 49, [97, 47, 99]⟩] =
      create_tree (fun _ => List.replicate 64 48)
        [⟨33188, List.replicate 64 49, [97, 47, 99]⟩,
         ⟨33188, List.replicate 64 48, [98]⟩]) :=
  c6_tree_sorted_and_order_independent (fun _ => List.replicate 64 48)
    [⟨33188, List.replicate 64 48, [98]⟩,
     ⟨33188, List.replicate 64 49, [97, 47, 99]⟩]
    [⟨33188, List.replicate 64 49, [97, 47, 99]⟩,
     ⟨33188, List.replicate 64 48, [98]⟩]
    4
    [([[98]], ⟨33188, List.replicate 64 48, [98]⟩),
     ([[97], [99]], ⟨33188, List.replicate 64 49, [97, 47, 99]⟩)]
    [((([97] : Bytes)), (⟨16384, treeT, List.replicate 64 48, [97]⟩ : TreeEntry)),
     ((([98] : Bytes)), (⟨33188, blobT, List.replicate 64 48, [98]⟩ : TreeEntry))]
    (by decide)
    (List.Perm.swap (⟨33188, List.replicate 64 49, [97, 47, 99]⟩ : IndexEntry)
      (⟨33188, List.replicate 64 48, [98]⟩ : IndexEntry) [])
    (by decide)
    (by decide)

end Rit
